import Mathlib

/-!
Verification of the n-gram language model core of the
FulfuldeTranslatorTwitterBot repository (`src/ngram_lm.py` and the
`language_identifier` method of `src/translator_bot.py`).

Python strings are embedded as `List Char`; a token (an element of a
tuple produced by the extractor) is itself a Python string, hence
`List Char`.  Nested `dict`s / `defaultdict`s are embedded as
association lists with first-match lookup; insertion happens at the
end, matching CPython's insertion-ordered dictionaries.  Python floats
are embedded as exact rationals; the transcendental `np.log` used by
`assign_logprob` is embedded as `Real.log` on top of the rational
probability list.  Python exceptions (`ZeroDivisionError`,
`TypeError` on `None` arithmetic, unpacking an empty tuple) are
embedded as `none` / `.exn` results.
-/

abbrev Token := List Char

abbrev Context := List Token

/-- Inner `dict` of a count table: next-token → count. -/
abbrev CountEntry := List (Token × Nat)

/-- Outer `dict` of a count table: context tuple → inner dict. -/
abbrev CountTable := List (Context × CountEntry)

/-- First-match lookup in an association list (`dict.get`). -/
def alookup {α β : Type} [DecidableEq α] : List (α × β) → α → Option β
  | [], _ => none
  | (k, v) :: rest, key => if k = key then some v else alookup rest key

/-- `d[k] = v` on a Python dict: replace in place if present, append otherwise. -/
def dinsert {α β : Type} [DecidableEq α] : List (α × β) → α → β → List (α × β)
  | [], k, v => [(k, v)]
  | (k', v') :: rest, k, v =>
      if k' = k then (k', v) :: rest else (k', v') :: dinsert rest k v

/-- Build a Python dict from a list of key/value pairs (`dict(pairs)`):
assignments are performed left to right, later values win. -/
def dictOf {α β : Type} [DecidableEq α] (l : List (α × β)) : List (α × β) :=
  l.foldl (fun d p => dinsert d p.1 p.2) []

/-- `defaultdict(int)` increment: `e[t] += 1`. -/
def bump : CountEntry → Token → CountEntry
  | [], t => [(t, 1)]
  | (t', c) :: rest, t =>
      if t' = t then (t', c + 1) :: rest else (t', c) :: bump rest t

/-- `self.ngram_counter[ctx][t] += 1` on the nested `defaultdict`. -/
def bumpCtx : CountTable → Context → Token → CountTable
  | [], ctx, t => [(ctx, bump [] t)]
  | (c', e) :: rest, ctx, t =>
      if c' = ctx then (c', bump e t) :: rest else (c', e) :: bumpCtx rest ctx t

/-- `vocabulary.add(t)` on a `set`, kept as a duplicate-free list. -/
def vinsert (v : List Token) (t : Token) : List Token :=
  if t ∈ v then v else v ++ [t]

/-- `sum(entry.values())`. -/
def sumCounts (e : CountEntry) : Nat :=
  (e.map (fun p => p.2)).sum

/-- Sliding windows of size `n` with stride 1, as produced by the
`tee`/shift/`zip` construction of `get_ngrams`: empty when `n = 0`
(`zip()` of no iterables) or when the input is shorter than `n`. -/
def windows {α : Type} (n : Nat) : List α → List (List α)
  | [] => []
  | a :: l =>
      if 0 < n ∧ n ≤ l.length + 1 then (a :: l).take n :: windows n l else []

/-- The model object: the five scalar attributes plus the count table.
`denominator_smoother` is `None` until `estimate` or `load_model` sets it.
(The source also allows `language=None`; the claims under verification only
involve models whose language tag is a string, so the tag is a plain string
here.) -/
structure Model where
  language : List Char
  pad_utterances : Bool
  ngram_size : Nat
  smooth : ℚ
  ngram_counter : CountTable
  denominator_smoother : Option ℚ
  deriving DecidableEq

/-- `NGramLanguageModel.__init__`: stores the arguments, creates an empty
count table and a `None` denominator smoother.  It performs no validation. -/
def initModel (language : List Char) (pad_utterances : Bool)
    (ngram_size : Nat) (smooth : ℚ) : Model :=
  { language := language
    pad_utterances := pad_utterances
    ngram_size := ngram_size
    smooth := smooth
    ngram_counter := []
    denominator_smoother := none }

/-- Iterating over a Python string yields its characters, each a
length-one string. -/
def tokensOf (u : List Char) : List Token :=
  u.map (fun c => [c])

/-- The (possibly padded) token sequence that `get_ngrams` windows over. -/
def paddedTokens (m : Model) (utterance : List Char) : List Token :=
  if m.pad_utterances then
    List.replicate (m.ngram_size - 1) ['<'] ++ tokensOf utterance
      ++ List.replicate (m.ngram_size - 1) ['>']
  else tokensOf utterance

/-- `get_ngrams`: pad (optionally), then slide a window of `ngram_size`. -/
def get_ngrams (m : Model) (utterance : List Char) : List (List Token) :=
  windows m.ngram_size (paddedTokens m utterance)

/-- One training update for a single n-gram: split off the last token,
increment the count, add the next token to the vocabulary.  (The unpacking
`*context, next = ngram` never sees an empty n-gram, since windows are
nonempty; the empty case is unreachable and leaves the state unchanged.) -/
def trainStep (acc : CountTable × List Token) (g : List Token) :
    CountTable × List Token :=
  match g.getLast? with
  | none => acc
  | some t => (bumpCtx acc.1 g.dropLast t, vinsert acc.2 t)

/-- The double loop of `estimate`: all n-grams of all utterances, with a
fresh empty vocabulary and the model's current count table. -/
def trainFold (m : Model) (corpus : List (List Char)) :
    CountTable × List Token :=
  corpus.foldl (fun acc u => (get_ngrams m u).foldl trainStep acc)
    (m.ngram_counter, [])

/-- `estimate`: accumulate counts over the corpus (one stripped utterance
per line), then set `denominator_smoother = len(vocabulary) * smooth`. -/
def estimate (m : Model) (corpus : List (List Char)) : Model :=
  { m with
    ngram_counter := (trainFold m corpus).1
    denominator_smoother :=
      some (((trainFold m corpus).2.length : ℚ) * m.smooth) }

/-- The unseen-context return value `smooth / denominator_smoother`:
`none` models the `TypeError` on a `None` smoother and the
`ZeroDivisionError` on a zero one. -/
def unseenProb (m : Model) : Option ℚ :=
  match m.denominator_smoother with
  | none => none
  | some d => if d = 0 then none else some (m.smooth / d)

/-- `ngram_probability`.  `none` models the exceptions: unpacking an empty
tuple, `None` arithmetic, division by zero. -/
def ngram_probability (m : Model) (ngram : List Token) : Option ℚ :=
  match ngram.getLast? with
  | none => none
  | some next_token =>
    match alookup m.ngram_counter ngram.dropLast with
    | none => unseenProb m
    | some e =>
      if e = [] then unseenProb m
      else
        match m.denominator_smoother with
        | none => none
        | some d =>
          if (sumCounts e : ℚ) + d = 0 then none
          else some ((((alookup e next_token).getD 0 : ℚ) + m.smooth)
                      / ((sumCounts e : ℚ) + d))

/-- Outcome of the probability-collection phase of `assign_logprob`:
an exception, the `False` sentinel for an empty n-gram list, or the list
of per-n-gram probabilities to be logged and averaged. -/
inductive ScoreOut where
  | exn : ScoreOut
  | sentinel : ScoreOut
  | probs : List ℚ → ScoreOut
  deriving DecidableEq

/-- The list comprehension of `assign_logprob`: the probability of every
n-gram in order; `none` if computing any of them raises. -/
def collectProbs (m : Model) : List (List Token) → Option (List ℚ)
  | [] => some []
  | g :: gs =>
    match ngram_probability m g with
    | none => none
    | some p =>
      match collectProbs m gs with
      | none => none
      | some ps => some (p :: ps)

/-- `assign_logprob` up to (but not including) the `np.log` step. -/
def assign_probs (m : Model) (u : List Char) : ScoreOut :=
  if get_ngrams m u = [] then ScoreOut.sentinel
  else
    match collectProbs m (get_ngrams m u) with
    | none => ScoreOut.exn
    | some ps => ScoreOut.probs ps

/-- A Python value returned by `assign_logprob`: an exception escape,
the literal `False`, or a float. -/
inductive PyVal where
  | exn : PyVal
  | bfalse : PyVal
  | f : ℝ → PyVal

/-- `assign_logprob`: `False` when no n-grams were extracted, otherwise
the mean of the natural logs of the n-gram probabilities. -/
noncomputable def assign_logprob (m : Model) (u : List Char) : PyVal :=
  match assign_probs m u with
  | ScoreOut.exn => PyVal.exn
  | ScoreOut.sentinel => PyVal.bfalse
  | ScoreOut.probs ps =>
      PyVal.f ((ps.map (fun p : ℚ => Real.log (p : ℝ))).sum /
        (ps.length : ℝ))

/-- `" ".join(tokens)`. -/
def joinSp : List Token → Token
  | [] => []
  | [t] => t
  | t :: t2 :: ts => t ++ ' ' :: joinSp (t2 :: ts)

/-- `key.split(" ")` with an explicit single-space separator: every
occurrence of the separator splits, empty pieces are kept, and the empty
string yields `[""]`. -/
def splitSp : Token → List Token
  | [] => [[]]
  | c :: rest =>
    if c = ' ' then [] :: splitSp rest
    else
      match splitSp rest with
      | [] => [[c]]
      | t :: ts => (c :: t) :: ts

/-- The JSON document written by `save_model`: the count table under
space-joined context keys, plus the five metadata fields.  The metadata
live under their own fixed names (`"language"`, `"pad_utterances"`,
`"denominator_smoother"`, `"smooth"`, `"ngram_size"`), which never collide
with a joined context key of character tokens. -/
structure SavedModel where
  table : List (Token × CountEntry)
  language : List Char
  pad_utterances : Bool
  denominator_smoother : Option ℚ
  smooth : ℚ
  ngram_size : Nat
  deriving DecidableEq

/-- `save_model`: join each context with spaces, shuffle, rebuild a dict
(later duplicate keys win), then attach the metadata.  The shuffled order
of the count-table items is passed in explicitly; theorems quantify over
every permutation of the model's items. -/
def save_model (m : Model) (shuffled : List (Context × CountEntry)) :
    SavedModel :=
  { table := dictOf (shuffled.map (fun p => (joinSp p.1, p.2)))
    language := m.language
    pad_utterances := m.pad_utterances
    denominator_smoother := m.denominator_smoother
    smooth := m.smooth
    ngram_size := m.ngram_size }

/-- `load_model`: read the five metadata fields and rebuild the count table
by splitting each remaining key on spaces. -/
def load_model (doc : SavedModel) : Model :=
  { language := doc.language
    pad_utterances := doc.pad_utterances
    denominator_smoother := doc.denominator_smoother
    smooth := doc.smooth
    ngram_size := doc.ngram_size
    ngram_counter := dictOf (doc.table.map (fun p => (splitSp p.1, p.2))) }

/-- The numeric value a Python comparison sees in the first tuple slot of
`language_identifier`: `False` compares as `0.0`.  (`exn` never reaches a
comparison; the identifier aborts first.) -/
noncomputable def pyNum : PyVal → ℝ
  | PyVal.exn => 0
  | PyVal.bfalse => 0
  | PyVal.f x => x

/-- Strict `>` on the `(score, language)` tuples compared by `max`. -/
def pairGt (x y : ℝ × List Char) : Prop :=
  y.1 < x.1 ∨ (x.1 = y.1 ∧ y.2 < x.2)

open scoped Classical in
/-- One comparison step of Python's `max`: replace the current best only
on strict `>`, so the first of fully tied elements wins. -/
noncomputable def pystep (best x : ℝ × List Char) : ℝ × List Char :=
  if pairGt x best then x else best

/-- Python's `max` over a nonempty sequence, scanning left to right. -/
noncomputable def pymax (b : ℝ × List Char) (l : List (ℝ × List Char)) :
    ℝ × List Char :=
  l.foldl pystep b

/-- `language_identifier`: `max((model.assign_logprob(text), model.language)
for model in self.ngram_models)[1]`.  `none` models the exceptions: an
empty model collection (`max` of an empty sequence) or a scoring exception
propagating out of the generator. -/
noncomputable def language_identifier (models : List Model)
    (text : List Char) : Option (List Char) :=
  match models with
  | [] => none
  | m :: rest =>
    if ∀ mo ∈ m :: rest, assign_probs mo text ≠ ScoreOut.exn then
      some (pymax (pyNum (assign_logprob m text), m.language)
        (rest.map (fun mo => (pyNum (assign_logprob mo text), mo.language)))).2
    else none

/-- Subscripting a `defaultdict(...)`: a missing key is inserted at the end
with the default value (here the empty inner dict) and returned. -/
def ddIndex (tab : CountTable) (ctx : Context) : CountEntry × CountTable :=
  match alookup tab ctx with
  | some e => (e, tab)
  | none => ([], tab ++ [(ctx, [])])

/-- `ngram_probability` with the mutation of the `defaultdict` subscript
`self.ngram_counter[left_context]` made explicit: the result is paired with
the model state after the call. -/
def ngram_probability_st (m : Model) (ngram : List Token) :
    Option ℚ × Model :=
  match ngram.getLast? with
  | none => (none, m)
  | some next_token =>
    match alookup m.ngram_counter ngram.dropLast with
    | none => (unseenProb m, m)
    | some e =>
      if e = [] then (unseenProb m, m)
      else
        match m.denominator_smoother with
        | none => (none, m)
        | some d =>
          let scan := ddIndex m.ngram_counter ngram.dropLast
          let m2 := { m with ngram_counter := scan.2 }
          if (sumCounts e : ℚ) + d = 0 then (none, m2)
          else some ((((alookup scan.1 next_token).getD 0 : ℚ) + m.smooth)
                      / ((sumCounts e : ℚ) + d)) |> (·, m2)

/-- The probability-collection phase of `assign_logprob` with the model
state threaded through every `ngram_probability` call. -/
def collectProbs_st (m : Model) : List (List Token) → Option (List ℚ) × Model
  | [] => (some [], m)
  | g :: gs =>
    match ngram_probability_st m g with
    | (none, m2) => (none, m2)
    | (some p, m2) =>
      match collectProbs_st m2 gs with
      | (none, m3) => (none, m3)
      | (some ps, m3) => (some (p :: ps), m3)

/-- `assign_logprob` up to the `np.log` step, with explicit state. -/
def assign_probs_st (m : Model) (u : List Char) : ScoreOut × Model :=
  if get_ngrams m u = [] then (ScoreOut.sentinel, m)
  else
    match collectProbs_st m (get_ngrams m u) with
    | (none, m2) => (ScoreOut.exn, m2)
    | (some ps, m2) => (ScoreOut.probs ps, m2)

/-- The keys of an association list, in order. -/
def keysOf {α β : Type} (l : List (α × β)) : List α :=
  l.map Prod.fst

/-- Non-strict lexicographic order on the `(score, language)` tuples. -/
def lexLe (x y : ℝ × List Char) : Prop :=
  x.1 < y.1 ∨ (x.1 = y.1 ∧ x.2 ≤ y.2)

/-- Well-formedness of one inner count dict relative to a vocabulary:
nonempty, duplicate-free keys, every key a vocabulary member. -/
def EntryOk (voc : List Token) (e : CountEntry) : Prop :=
  e ≠ [] ∧ (keysOf e).Nodup ∧ ∀ p ∈ e, p.1 ∈ voc

/-- Well-formedness of a training state (count table, vocabulary). -/
def StateOk (s : CountTable × List Token) : Prop :=
  (keysOf s.1).Nodup ∧ s.2.Nodup ∧ (∀ p ∈ s.1, EntryOk s.2 p.2) ∧
    (s.1 = [] ∨ s.2 ≠ [])

/-- Shape of the contexts stored in a trained table: each has exactly
`n - 1` tokens and all its tokens satisfy `P`. -/
def CtxOk (P : Token → Prop) (n : Nat) (tab : CountTable) : Prop :=
  ∀ q ∈ tab, q.1.length = n - 1 ∧ ∀ t ∈ q.1, P t

section WindowLemmas

lemma windows_eq_nil {α : Type} {n : Nat} {l : List α} (h : l.length < n) :
    windows n l = [] := by
  cases l with
  | nil => rfl
  | cons a l =>
    simp only [windows]
    rw [if_neg]
    rintro ⟨-, h2⟩
    simp only [List.length_cons] at h
    omega

lemma windows_length_of_mem {α : Type} {n : Nat} :
    ∀ {l : List α} {w : List α}, w ∈ windows n l → w.length = n := by
  intro l
  induction l with
  | nil => intro w hw; simp [windows] at hw
  | cons a l ih =>
    intro w hw
    simp only [windows] at hw
    by_cases h : 0 < n ∧ n ≤ l.length + 1
    · rw [if_pos h] at hw
      rcases List.mem_cons.mp hw with rfl | hw
      · rw [List.length_take]
        simp only [List.length_cons]
        omega
      · exact ih hw
    · rw [if_neg h] at hw
      exact absurd hw (List.not_mem_nil w)

lemma windows_subset {α : Type} {n : Nat} :
    ∀ {l : List α} {w : List α}, w ∈ windows n l → ∀ x ∈ w, x ∈ l := by
  intro l
  induction l with
  | nil => intro w hw; simp [windows] at hw
  | cons a l ih =>
    intro w hw x hx
    simp only [windows] at hw
    by_cases h : 0 < n ∧ n ≤ l.length + 1
    · rw [if_pos h] at hw
      rcases List.mem_cons.mp hw with rfl | hw
      · exact List.mem_of_mem_take hx
      · exact List.mem_cons_of_mem a (ih hw x hx)
    · rw [if_neg h] at hw
      exact absurd hw (List.not_mem_nil w)

end WindowLemmas

section LookupLemmas

lemma alookup_eq_none_iff {α β : Type} [DecidableEq α] :
    ∀ {l : List (α × β)} {k : α}, alookup l k = none ↔ k ∉ keysOf l := by
  intro l
  induction l with
  | nil => simp [alookup, keysOf]
  | cons p rest ih =>
    intro k
    obtain ⟨k', v'⟩ := p
    simp only [alookup, keysOf, List.map_cons, List.mem_cons]
    by_cases h : k' = k
    · subst h; simp
    · rw [if_neg h]
      rw [ih]
      simp [keysOf, Ne.symm h]

lemma alookup_mem {α β : Type} [DecidableEq α] :
    ∀ {l : List (α × β)} {k : α} {v : β},
      alookup l k = some v → (k, v) ∈ l := by
  intro l
  induction l with
  | nil => intro k v h; simp [alookup] at h
  | cons p rest ih =>
    intro k v h
    obtain ⟨k', v'⟩ := p
    simp only [alookup] at h
    by_cases hk : k' = k
    · subst hk
      rw [if_pos rfl] at h
      obtain rfl := Option.some.inj h
      exact List.mem_cons_self _ _
    · rw [if_neg hk] at h
      exact List.mem_cons_of_mem _ (ih h)

lemma dinsert_of_notMem {α β : Type} [DecidableEq α] :
    ∀ {d : List (α × β)} {k : α} (v : β),
      k ∉ keysOf d → dinsert d k v = d ++ [(k, v)] := by
  intro d
  induction d with
  | nil => intro k v _; rfl
  | cons p rest ih =>
    intro k v h
    obtain ⟨k', v'⟩ := p
    have h' : ¬(k = k' ∨ k ∈ keysOf rest) := by
      intro hh
      apply h
      simp only [keysOf, List.map_cons, List.mem_cons]
      exact hh
    rw [not_or] at h'
    have hne : ¬ k' = k := fun hh => h'.1 hh.symm
    simp only [dinsert, if_neg hne, List.cons_append, List.cons.injEq,
      true_and]
    exact ih v h'.2

lemma dictOf_go {α β : Type} [DecidableEq α] :
    ∀ (l acc : List (α × β)), (keysOf (acc ++ l)).Nodup →
      l.foldl (fun d p => dinsert d p.1 p.2) acc = acc ++ l := by
  intro l
  induction l with
  | nil => intro acc _; simp
  | cons p rest ih =>
    intro acc h
    have hsplit : keysOf (acc ++ p :: rest) =
        keysOf acc ++ p.1 :: keysOf rest := by
      simp [keysOf]
    rw [hsplit] at h
    have hnotin : p.1 ∉ keysOf acc := by
      intro hmem
      rcases List.nodup_append.mp h with ⟨-, -, hdisj⟩
      exact hdisj hmem (List.mem_cons_self _ _)
    simp only [List.foldl_cons]
    rw [dinsert_of_notMem p.2 hnotin]
    rw [ih (acc ++ [p]) (by simpa [keysOf] using h)]
    simp

lemma dictOf_of_nodup {α β : Type} [DecidableEq α] {l : List (α × β)}
    (h : (keysOf l).Nodup) : dictOf l = l := by
  simpa using dictOf_go l [] (by simpa [keysOf] using h)

lemma keysOf_perm {α β : Type} {l l' : List (α × β)} (h : l.Perm l') :
    (keysOf l).Perm (keysOf l') :=
  h.map Prod.fst

lemma alookup_perm {α β : Type} [DecidableEq α] {l l' : List (α × β)}
    (h : l.Perm l') (hn : (keysOf l).Nodup) (k : α) :
    alookup l k = alookup l' k := by
  induction h with
  | nil => rfl
  | cons x h ih =>
    simp only [alookup]
    by_cases hx : x.1 = k
    · rw [if_pos hx, if_pos hx]
    · rw [if_neg hx, if_neg hx]
      exact ih (by simpa [keysOf] using hn.of_cons)
  | swap x y l =>
    simp only [alookup]
    by_cases hy : y.1 = k
    · have hx : ¬ x.1 = k := by
        intro hx
        simp only [keysOf, List.map_cons, List.nodup_cons, List.mem_cons,
          not_or] at hn
        exact hn.1.1 (hy.trans hx.symm)
      rw [if_pos hy, if_neg hx, if_pos hy]
    · by_cases hx : x.1 = k
      · rw [if_neg hy, if_pos hx, if_pos hx]
      · rw [if_neg hy, if_neg hx, if_neg hx, if_neg hy]
  | trans h1 h2 ih1 ih2 =>
    rw [ih1 hn, ih2 ((keysOf_perm h1).nodup_iff.mp hn)]

end LookupLemmas

section CounterLemmas

lemma keysOf_cons {α β : Type} (k : α) (v : β) (l : List (α × β)) :
    keysOf ((k, v) :: l) = k :: keysOf l := rfl

lemma nodup_append_singleton {α : Type} {l : List α} {t : α}
    (h : l.Nodup) (hm : t ∉ l) : (l ++ [t]).Nodup := by
  refine List.nodup_append.mpr ⟨h, List.nodup_singleton t, ?_⟩
  intro a ha hb
  rw [List.mem_singleton] at hb
  subst hb
  exact hm ha

lemma bump_ne_nil (e : CountEntry) (t : Token) : bump e t ≠ [] := by
  cases e with
  | nil => simp [bump]
  | cons p rest =>
    obtain ⟨t', c⟩ := p
    simp only [bump]
    split <;> simp

lemma keysOf_bump (e : CountEntry) (t : Token) :
    keysOf (bump e t) =
      if t ∈ keysOf e then keysOf e else keysOf e ++ [t] := by
  induction e with
  | nil => simp [bump, keysOf]
  | cons p rest ih =>
    obtain ⟨t', c⟩ := p
    simp only [bump]
    by_cases h : t' = t
    · subst h
      simp [keysOf]
    · rw [if_neg h]
      simp only [keysOf_cons]
      rw [ih]
      by_cases hm : t ∈ keysOf rest
      · rw [if_pos hm, if_pos (List.mem_cons_of_mem _ hm)]
      · rw [if_neg hm, if_neg (by
          intro hc
          rcases List.mem_cons.mp hc with hc | hc
          · exact h hc.symm
          · exact hm hc)]
        simp

lemma bump_keys_nodup {e : CountEntry} (t : Token)
    (h : (keysOf e).Nodup) : (keysOf (bump e t)).Nodup := by
  rw [keysOf_bump]
  by_cases hm : t ∈ keysOf e
  · rwa [if_pos hm]
  · rw [if_neg hm]
    exact nodup_append_singleton h hm

lemma bump_mem_token {e : CountEntry} {t : Token} :
    ∀ p ∈ bump e t, p.1 ∈ keysOf e ∨ p.1 = t := by
  induction e with
  | nil =>
    intro p hp
    simp only [bump, List.mem_singleton] at hp
    subst hp
    exact Or.inr rfl
  | cons q rest ih =>
    intro p hp
    obtain ⟨t', c⟩ := q
    simp only [bump] at hp
    by_cases h : t' = t
    · rw [if_pos h] at hp
      rcases List.mem_cons.mp hp with rfl | hp
      · exact Or.inl (List.mem_cons_self _ _)
      · exact Or.inl (List.mem_cons_of_mem _ (List.mem_map_of_mem Prod.fst hp))
    · rw [if_neg h] at hp
      rcases List.mem_cons.mp hp with rfl | hp
      · exact Or.inl (List.mem_cons_self _ _)
      · rcases ih p hp with hm | hm
        · exact Or.inl (List.mem_cons_of_mem _ hm)
        · exact Or.inr hm

lemma bumpCtx_mem {tab : CountTable} {ctx : Context} {t : Token} :
    ∀ p ∈ bumpCtx tab ctx t,
      p ∈ tab ∨ ∃ e, p = (ctx, bump e t) ∧ ((ctx, e) ∈ tab ∨ e = []) := by
  induction tab with
  | nil =>
    intro p hp
    simp only [bumpCtx, List.mem_singleton] at hp
    exact Or.inr ⟨[], hp, Or.inr rfl⟩
  | cons q rest ih =>
    intro p hp
    obtain ⟨c', e'⟩ := q
    simp only [bumpCtx] at hp
    by_cases h : c' = ctx
    · subst h
      rw [if_pos rfl] at hp
      rcases List.mem_cons.mp hp with rfl | hp
      · exact Or.inr ⟨e', rfl, Or.inl (List.mem_cons_self _ _)⟩
      · exact Or.inl (List.mem_cons_of_mem _ hp)
    · rw [if_neg h] at hp
      rcases List.mem_cons.mp hp with rfl | hp
      · exact Or.inl (List.mem_cons_self _ _)
      · rcases ih p hp with hm | ⟨e, he, hm⟩
        · exact Or.inl (List.mem_cons_of_mem _ hm)
        · refine Or.inr ⟨e, he, ?_⟩
          rcases hm with hm | hm
          · exact Or.inl (List.mem_cons_of_mem _ hm)
          · exact Or.inr hm

lemma keysOf_bumpCtx (tab : CountTable) (ctx : Context) (t : Token) :
    keysOf (bumpCtx tab ctx t) =
      if ctx ∈ keysOf tab then keysOf tab else keysOf tab ++ [ctx] := by
  induction tab with
  | nil => simp [bumpCtx, keysOf]
  | cons q rest ih =>
    obtain ⟨c', e'⟩ := q
    simp only [bumpCtx]
    by_cases h : c' = ctx
    · subst h
      simp [keysOf]
    · rw [if_neg h]
      simp only [keysOf_cons]
      rw [ih]
      by_cases hm : ctx ∈ keysOf rest
      · rw [if_pos hm, if_pos (List.mem_cons_of_mem _ hm)]
      · rw [if_neg hm, if_neg (by
          intro hc
          rcases List.mem_cons.mp hc with hc | hc
          · exact h hc.symm
          · exact hm hc)]
        simp

lemma bumpCtx_keys_nodup {tab : CountTable} (ctx : Context) (t : Token)
    (h : (keysOf tab).Nodup) : (keysOf (bumpCtx tab ctx t)).Nodup := by
  rw [keysOf_bumpCtx]
  by_cases hm : ctx ∈ keysOf tab
  · rwa [if_pos hm]
  · rw [if_neg hm]
    exact nodup_append_singleton h hm

lemma bumpCtx_ne_nil (tab : CountTable) (ctx : Context) (t : Token) :
    bumpCtx tab ctx t ≠ [] := by
  cases tab with
  | nil => simp [bumpCtx]
  | cons q rest =>
    obtain ⟨c', e'⟩ := q
    simp only [bumpCtx]
    split <;> simp

lemma subset_vinsert (v : List Token) (t : Token) : v ⊆ vinsert v t := by
  unfold vinsert
  split
  · exact fun x hx => hx
  · exact fun x hx => List.mem_append_left _ hx

lemma mem_vinsert_self (v : List Token) (t : Token) : t ∈ vinsert v t := by
  unfold vinsert
  split
  · assumption
  · exact List.mem_append_right _ (List.mem_singleton.mpr rfl)

lemma vinsert_nodup {v : List Token} (t : Token) (h : v.Nodup) :
    (vinsert v t).Nodup := by
  unfold vinsert
  split
  · exact h
  · exact nodup_append_singleton h (by assumption)

lemma vinsert_ne_nil (v : List Token) (t : Token) : vinsert v t ≠ [] := by
  intro hcon
  exact (List.eq_nil_iff_forall_not_mem.mp hcon t) (mem_vinsert_self v t)

end CounterLemmas

section TrainingInvariants

lemma trainStep_stateOk {s : CountTable × List Token} (h : StateOk s)
    (g : List Token) : StateOk (trainStep s g) := by
  obtain ⟨tab, voc⟩ := s
  unfold trainStep
  cases hg : g.getLast? with
  | none => exact h
  | some t =>
    obtain ⟨h1, h2, h3, _⟩ := h
    refine ⟨bumpCtx_keys_nodup _ _ h1, vinsert_nodup _ h2, ?_,
      Or.inr (vinsert_ne_nil voc t)⟩
    intro p hp
    rcases bumpCtx_mem p hp with hm | ⟨e, rfl, hm⟩
    · obtain ⟨hne, hnd, hsub⟩ := h3 p hm
      exact ⟨hne, hnd, fun q hq => subset_vinsert voc t (hsub q hq)⟩
    · have hkeys : ∀ x ∈ keysOf e, x ∈ voc := by
        intro x hx
        rcases List.mem_map.mp hx with ⟨q, hq, rfl⟩
        rcases hm with hm | rfl
        · exact (h3 _ hm).2.2 q hq
        · exact absurd hq (List.not_mem_nil q)
      have hnd : (keysOf e).Nodup := by
        rcases hm with hm | rfl
        · exact (h3 _ hm).2.1
        · exact List.nodup_nil
      refine ⟨bump_ne_nil e t, bump_keys_nodup t hnd, ?_⟩
      intro q hq
      rcases bump_mem_token q hq with hk | hk
      · exact subset_vinsert voc t (hkeys _ hk)
      · rw [hk]
        exact mem_vinsert_self voc t

lemma foldl_trainStep_stateOk (gs : List (List Token)) :
    ∀ {s : CountTable × List Token}, StateOk s →
      StateOk (gs.foldl trainStep s) := by
  induction gs with
  | nil => intro s h; exact h
  | cons g gs ih => intro s h; exact ih (trainStep_stateOk h g)

lemma foldl_corpus_stateOk (m : Model) (corpus : List (List Char)) :
    ∀ {s : CountTable × List Token}, StateOk s →
      StateOk (corpus.foldl
        (fun acc u => (get_ngrams m u).foldl trainStep acc) s) := by
  induction corpus with
  | nil => intro s h; exact h
  | cons u corpus ih =>
    intro s h
    exact ih (foldl_trainStep_stateOk _ h)

lemma trainFold_stateOk (m : Model) (corpus : List (List Char))
    (hm : m.ngram_counter = []) : StateOk (trainFold m corpus) := by
  unfold trainFold
  rw [hm]
  exact foldl_corpus_stateOk m corpus
    ⟨List.nodup_nil, List.nodup_nil,
      fun p hp => absurd hp (List.not_mem_nil p), Or.inl rfl⟩

lemma paddedTokens_space_free {m : Model} {u : List Char} (hu : ' ' ∉ u) :
    ∀ t ∈ paddedTokens m u, ' ' ∉ t := by
  intro t ht
  unfold paddedTokens at ht
  have htok : ∀ t ∈ tokensOf u, ' ' ∉ t := by
    intro t' ht'
    rcases List.mem_map.mp ht' with ⟨c, hc, rfl⟩
    intro hsp
    rw [List.mem_singleton] at hsp
    exact hu (hsp ▸ hc)
  split at ht
  · rcases List.mem_append.mp ht with ht | ht
    · rcases List.mem_append.mp ht with ht | ht
      · rw [List.eq_of_mem_replicate ht]
        decide
      · exact htok t ht
    · rw [List.eq_of_mem_replicate ht]
      decide
  · exact htok t ht

lemma trainStep_ctxOk {P : Token → Prop} {n : Nat}
    {s : CountTable × List Token} (h : CtxOk P n s.1) {g : List Token}
    (hg : g.length = n ∧ ∀ t ∈ g, P t) :
    CtxOk P n (trainStep s g).1 := by
  obtain ⟨tab, voc⟩ := s
  unfold trainStep
  cases hlast : g.getLast? with
  | none => exact h
  | some t =>
    intro q hq
    rcases bumpCtx_mem q hq with hm | ⟨e, rfl, -⟩
    · exact h q hm
    · constructor
      · rw [List.length_dropLast, hg.1]
      · intro x hx
        exact hg.2 x ((List.dropLast_sublist g).subset hx)

lemma get_ngrams_shape {m : Model} {u : List Char} (hu : ' ' ∉ u) :
    ∀ g ∈ get_ngrams m u, g.length = m.ngram_size ∧
      ∀ t ∈ g, ' ' ∉ t := by
  intro g hg
  unfold get_ngrams at hg
  refine ⟨windows_length_of_mem hg, ?_⟩
  intro t ht
  exact paddedTokens_space_free hu t (windows_subset hg t ht)

lemma foldl_trainStep_ctxOk {P : Token → Prop} {n : Nat}
    (gs : List (List Token)) (hgs : ∀ g ∈ gs, g.length = n ∧ ∀ t ∈ g, P t) :
    ∀ {s : CountTable × List Token}, CtxOk P n s.1 →
      CtxOk P n (gs.foldl trainStep s).1 := by
  induction gs with
  | nil => intro s h; exact h
  | cons g gs ih =>
    intro s h
    exact ih (fun g' hg' => hgs g' (List.mem_cons_of_mem _ hg'))
      (trainStep_ctxOk h (hgs g (List.mem_cons_self _ _)))

lemma trainFold_ctxOk (m : Model) (corpus : List (List Char))
    (hm : m.ngram_counter = []) (hc : ∀ u ∈ corpus, ' ' ∉ u) :
    CtxOk (fun t => ' ' ∉ t) m.ngram_size (trainFold m corpus).1 := by
  unfold trainFold
  rw [hm]
  have hgen : ∀ (cs : List (List Char)), (∀ u ∈ cs, ' ' ∉ u) →
      ∀ {s : CountTable × List Token},
        CtxOk (fun t => ' ' ∉ t) m.ngram_size s.1 →
        CtxOk (fun t => ' ' ∉ t) m.ngram_size
          (cs.foldl (fun acc u => (get_ngrams m u).foldl trainStep acc) s).1 := by
    intro cs
    induction cs with
    | nil => intro _ s h; exact h
    | cons u cs ih =>
      intro hcs s h
      exact ih (fun u' hu' => hcs u' (List.mem_cons_of_mem _ hu'))
        (foldl_trainStep_ctxOk _
          (get_ngrams_shape (hcs u (List.mem_cons_self _ _))) h)
  exact hgen corpus hc (fun q hq => absurd hq (List.not_mem_nil q))

end TrainingInvariants

section EvalLemmas

lemma ngram_probability_concat_seen {m : Model} {ctx : Context}
    {e : CountEntry} {d : ℚ} (t : Token)
    (he : alookup m.ngram_counter ctx = some e) (hne : e ≠ [])
    (hd : m.denominator_smoother = some d)
    (hden : (sumCounts e : ℚ) + d ≠ 0) :
    ngram_probability m (ctx ++ [t]) =
      some ((((alookup e t).getD 0 : ℚ) + m.smooth)
        / ((sumCounts e : ℚ) + d)) := by
  unfold ngram_probability
  rw [List.getLast?_concat]
  simp only [List.dropLast_concat]
  rw [he, hd]
  simp only [if_neg hne, if_neg hden]

lemma ngram_probability_concat_unseen {m : Model} {ctx : Context}
    {d : ℚ} (t : Token)
    (he : alookup m.ngram_counter ctx = none)
    (hd : m.denominator_smoother = some d) (hdz : d ≠ 0) :
    ngram_probability m (ctx ++ [t]) = some (m.smooth / d) := by
  unfold ngram_probability
  rw [List.getLast?_concat]
  simp only [List.dropLast_concat]
  rw [he]
  unfold unseenProb
  rw [hd]
  simp only [if_neg hdz]

end EvalLemmas

section MaxLemmas

lemma lexLe_refl (x : ℝ × List Char) : lexLe x x :=
  Or.inr ⟨rfl, le_refl _⟩

lemma lexLe_trans {x y z : ℝ × List Char} (h1 : lexLe x y) (h2 : lexLe y z) :
    lexLe x z := by
  rcases h1 with h1 | ⟨h1, h1'⟩
  · rcases h2 with h2 | ⟨h2, -⟩
    · exact Or.inl (h1.trans h2)
    · exact Or.inl (h2 ▸ h1)
  · rcases h2 with h2 | ⟨h2, h2'⟩
    · exact Or.inl (h1 ▸ h2)
    · exact Or.inr ⟨h1.trans h2, h1'.trans h2'⟩

lemma not_pairGt_iff {x y : ℝ × List Char} : ¬ pairGt x y ↔ lexLe x y := by
  constructor
  · intro h
    rcases lt_trichotomy x.1 y.1 with hlt | heq | hgt
    · exact Or.inl hlt
    · refine Or.inr ⟨heq, le_of_not_lt fun hlt2 => h (Or.inr ⟨heq, hlt2⟩)⟩
    · exact absurd (Or.inl hgt) h
  · intro h hp
    rcases h with h | ⟨heq, hle⟩
    · rcases hp with hp | ⟨hpe, -⟩
      · exact absurd h (lt_asymm hp)
      · exact absurd hpe (ne_of_lt h)
    · rcases hp with hp | ⟨-, hplt⟩
      · exact absurd (heq ▸ hp) (lt_irrefl _)
      · exact absurd hle (not_le_of_lt hplt)

lemma pairGt_lexLe {x y : ℝ × List Char} (h : pairGt x y) : lexLe y x := by
  rcases h with h | ⟨heq, hlt⟩
  · exact Or.inl h
  · exact Or.inr ⟨heq.symm, le_of_lt hlt⟩

lemma pystep_cases (b x : ℝ × List Char) : pystep b x = b ∨ pystep b x = x := by
  unfold pystep
  split
  · exact Or.inr rfl
  · exact Or.inl rfl

lemma lexLe_pystep_left (b x : ℝ × List Char) : lexLe b (pystep b x) := by
  unfold pystep
  split
  · exact pairGt_lexLe (by assumption)
  · exact lexLe_refl b

lemma lexLe_pystep_right (b x : ℝ × List Char) : lexLe x (pystep b x) := by
  unfold pystep
  split
  · exact lexLe_refl x
  · exact not_pairGt_iff.mp (by assumption)

lemma pymax_cons (b x : ℝ × List Char) (l : List (ℝ × List Char)) :
    pymax b (x :: l) = pymax (pystep b x) l := rfl

lemma pymax_nil (b : ℝ × List Char) : pymax b [] = b := rfl

lemma pymax_mem (b : ℝ × List Char) (l : List (ℝ × List Char)) :
    pymax b l ∈ b :: l := by
  induction l generalizing b with
  | nil => exact List.mem_cons_self _ _
  | cons x l ih =>
    rw [pymax_cons]
    rcases pystep_cases b x with hs | hs <;> rw [hs]
    · rcases List.mem_cons.mp (ih b) with he | he
      · rw [he]
        exact List.mem_cons_self _ _
      · exact List.mem_cons_of_mem _ (List.mem_cons_of_mem _ he)
    · rcases List.mem_cons.mp (ih x) with he | he
      · rw [he]
        exact List.mem_cons_of_mem _ (List.mem_cons_self _ _)
      · exact List.mem_cons_of_mem _ (List.mem_cons_of_mem _ he)

lemma pymax_ge (b : ℝ × List Char) (l : List (ℝ × List Char)) :
    ∀ y ∈ b :: l, lexLe y (pymax b l) := by
  induction l generalizing b with
  | nil =>
    intro y hy
    rcases List.mem_cons.mp hy with rfl | hy
    · exact lexLe_refl y
    · exact absurd hy (List.not_mem_nil y)
  | cons x l ih =>
    intro y hy
    rw [pymax_cons]
    rcases List.mem_cons.mp hy with rfl | hy
    · exact lexLe_trans (lexLe_pystep_left y x)
        (ih _ _ (List.mem_cons_self _ _))
    · rcases List.mem_cons.mp hy with rfl | hy
      · exact lexLe_trans (lexLe_pystep_right b y)
          (ih _ _ (List.mem_cons_self _ _))
      · exact ih _ _ (List.mem_cons_of_mem _ hy)

end MaxLemmas

section JoinSplitLemmas

lemma splitSp_ne_nil (l : Token) : splitSp l ≠ [] := by
  induction l with
  | nil => simp [splitSp]
  | cons c rest ih =>
    simp only [splitSp]
    by_cases h : c = ' '
    · rw [if_pos h]
      simp
    · rw [if_neg h]
      cases hs : splitSp rest <;> simp

lemma splitSp_no_space {l : Token} (h : ' ' ∉ l) : splitSp l = [l] := by
  induction l with
  | nil => rfl
  | cons c rest ih =>
    have hc : ¬ c = ' ' := by
      intro hh
      exact h (hh ▸ List.mem_cons_self c rest)
    simp only [splitSp, if_neg hc]
    rw [ih (fun hh => h (List.mem_cons_of_mem c hh))]

lemma splitSp_space_append {a : Token} (r : List Char) (ha : ' ' ∉ a) :
    splitSp (a ++ ' ' :: r) = a :: splitSp r := by
  induction a with
  | nil =>
    simp [splitSp]
  | cons c a ih =>
    have hc : ¬ c = ' ' := by
      intro hh
      exact ha (hh ▸ List.mem_cons_self c a)
    simp only [List.cons_append, splitSp, if_neg hc, List.append_eq]
    rw [ih (fun hh => ha (List.mem_cons_of_mem c hh))]

lemma splitSp_joinSp : ∀ {ts : List Token}, ts ≠ [] →
    (∀ t ∈ ts, ' ' ∉ t) → splitSp (joinSp ts) = ts := by
  intro ts
  induction ts with
  | nil => intro h _; exact absurd rfl h
  | cons t ts ih =>
    intro _ h
    cases ts with
    | nil =>
      simp only [joinSp]
      exact splitSp_no_space (h t (List.mem_cons_self t []))
    | cons t2 ts2 =>
      rw [show joinSp (t :: t2 :: ts2) = t ++ ' ' :: joinSp (t2 :: ts2)
        from rfl]
      rw [splitSp_space_append _ (h t (List.mem_cons_self _ _))]
      rw [ih (by simp) (fun x hx => h x (List.mem_cons_of_mem t hx))]

end JoinSplitLemmas

section StateLemmas

lemma ddIndex_of_found {tab : CountTable} {ctx : Context} {e : CountEntry}
    (h : alookup tab ctx = some e) : ddIndex tab ctx = (e, tab) := by
  unfold ddIndex
  rw [h]

lemma ngram_probability_st_model (m : Model) (g : List Token) :
    (ngram_probability_st m g).2 = m := by
  unfold ngram_probability_st
  split
  · rfl
  · split
    · rfl
    · rename_i e heq
      split
      · rfl
      · split
        · rfl
        · dsimp only
          rw [ddIndex_of_found heq]
          split <;> rfl

lemma collectProbs_st_model (m : Model) :
    ∀ gs : List (List Token), (collectProbs_st m gs).2 = m := by
  intro gs
  induction gs with
  | nil => rfl
  | cons g gs ih =>
    simp only [collectProbs_st]
    rcases hp : ngram_probability_st m g with ⟨r, m'⟩
    have hm' : m' = m := by
      have h2 := ngram_probability_st_model m g
      rw [hp] at h2
      exact h2
    cases r with
    | none => simpa using hm'
    | some p =>
      rw [hm']
      rcases hq : collectProbs_st m gs with ⟨res, m''⟩
      have hm'' : m'' = m := by
        rw [hq] at ih
        exact ih
      cases res <;> simp [hq, hm'']

lemma assign_probs_st_model (m : Model) (u : List Char) :
    (assign_probs_st m u).2 = m := by
  unfold assign_probs_st
  split
  · rfl
  · rcases hq : collectProbs_st m (get_ngrams m u) with ⟨res, m2⟩
    have hm2 : m2 = m := by
      have h2 := collectProbs_st_model m (get_ngrams m u)
      rw [hq] at h2
      exact h2
    subst hm2
    cases res <;> simp [hq]

end StateLemmas

section CongruenceLemmas

lemma unseenProb_congr {m1 m2 : Model} (hsm : m1.smooth = m2.smooth)
    (hD : m1.denominator_smoother = m2.denominator_smoother) :
    unseenProb m1 = unseenProb m2 := by
  unfold unseenProb
  rw [hD, hsm]

lemma ngram_probability_congr {m1 m2 : Model} (hsm : m1.smooth = m2.smooth)
    (hD : m1.denominator_smoother = m2.denominator_smoother)
    (hlook : ∀ c, alookup m1.ngram_counter c = alookup m2.ngram_counter c)
    (g : List Token) : ngram_probability m1 g = ngram_probability m2 g := by
  unfold ngram_probability
  rw [unseenProb_congr hsm hD, hlook g.dropLast, hD, hsm]

lemma collectProbs_congr {m1 m2 : Model} (hsm : m1.smooth = m2.smooth)
    (hD : m1.denominator_smoother = m2.denominator_smoother)
    (hlook : ∀ c, alookup m1.ngram_counter c = alookup m2.ngram_counter c) :
    ∀ gs, collectProbs m1 gs = collectProbs m2 gs := by
  intro gs
  induction gs with
  | nil => rfl
  | cons g gs ih =>
    simp only [collectProbs, ngram_probability_congr hsm hD hlook g, ih]

lemma get_ngrams_congr {m1 m2 : Model}
    (hpad : m1.pad_utterances = m2.pad_utterances)
    (hn : m1.ngram_size = m2.ngram_size) (u : List Char) :
    get_ngrams m1 u = get_ngrams m2 u := by
  unfold get_ngrams paddedTokens
  rw [hpad, hn]

lemma assign_probs_congr {m1 m2 : Model}
    (hpad : m1.pad_utterances = m2.pad_utterances)
    (hn : m1.ngram_size = m2.ngram_size) (hsm : m1.smooth = m2.smooth)
    (hD : m1.denominator_smoother = m2.denominator_smoother)
    (hlook : ∀ c, alookup m1.ngram_counter c = alookup m2.ngram_counter c)
    (u : List Char) : assign_probs m1 u = assign_probs m2 u := by
  unfold assign_probs
  rw [get_ngrams_congr hpad hn, collectProbs_congr hsm hD hlook]

lemma assign_logprob_congr {m1 m2 : Model}
    (hpad : m1.pad_utterances = m2.pad_utterances)
    (hn : m1.ngram_size = m2.ngram_size) (hsm : m1.smooth = m2.smooth)
    (hD : m1.denominator_smoother = m2.denominator_smoother)
    (hlook : ∀ c, alookup m1.ngram_counter c = alookup m2.ngram_counter c)
    (u : List Char) : assign_logprob m1 u = assign_logprob m2 u := by
  unfold assign_logprob
  rw [assign_probs_congr hpad hn hsm hD hlook]

end CongruenceLemmas

section RoundTripLemmas

lemma keysOf_map_join (l : List (Context × CountEntry)) :
    keysOf (l.map (fun p => (joinSp p.1, p.2))) = (keysOf l).map joinSp := by
  induction l with
  | nil => rfl
  | cons p l ih =>
    obtain ⟨a, b⟩ := p
    simp only [List.map_cons, keysOf_cons, ih]

lemma load_save_counter {M : Model} {shuffled : List (Context × CountEntry)}
    (hperm : shuffled.Perm M.ngram_counter)
    (hnod : (keysOf M.ngram_counter).Nodup)
    (hctx : ∀ q ∈ M.ngram_counter, q.1 ≠ [] ∧ ∀ t ∈ q.1, ' ' ∉ t) :
    (load_model (save_model M shuffled)).ngram_counter = shuffled := by
  have hshufnod : (keysOf shuffled).Nodup :=
    (keysOf_perm hperm).nodup_iff.mpr hnod
  have hmem : ∀ q ∈ shuffled, q.1 ≠ [] ∧ ∀ t ∈ q.1, ' ' ∉ t :=
    fun q hq => hctx q (hperm.subset hq)
  have hsj : ∀ q ∈ shuffled, splitSp (joinSp q.1) = q.1 :=
    fun q hq => splitSp_joinSp (hmem q hq).1 (hmem q hq).2
  have hmapnod : (keysOf (shuffled.map (fun p => (joinSp p.1, p.2)))).Nodup := by
    rw [keysOf_map_join]
    refine hshufnod.map_on ?_
    intro x hx y hy hxy
    rcases List.mem_map.mp hx with ⟨qx, hqx, rfl⟩
    rcases List.mem_map.mp hy with ⟨qy, hqy, rfl⟩
    rw [← hsj qx hqx, ← hsj qy hqy, hxy]
  unfold load_model save_model
  simp only
  rw [dictOf_of_nodup hmapnod, List.map_map]
  have hcomp : shuffled.map
      ((fun p : Token × CountEntry => (splitSp p.1, p.2)) ∘
        (fun p : Context × CountEntry => (joinSp p.1, p.2))) =
      shuffled.map (fun q => (q.1, q.2)) := by
    refine List.map_congr_left ?_
    intro q hq
    simp only [Function.comp]
    rw [hsj q hq]
  rw [hcomp]
  have hid : shuffled.map (fun q : Context × CountEntry => (q.1, q.2)) =
      shuffled := by
    have h1 : shuffled.map (fun q : Context × CountEntry => (q.1, q.2)) =
        shuffled.map id :=
      List.map_congr_left (fun q _ => Prod.mk.eta)
    rw [h1, List.map_id]
  rw [hid]
  exact dictOf_of_nodup hshufnod

end RoundTripLemmas

section SumLemmas

lemma sum_map_zero_q (V : List Token) :
    (V.map (fun _ => (0 : ℚ))).sum = 0 := by
  induction V with
  | nil => rfl
  | cons v V ih =>
    simp only [List.map_cons, List.sum_cons, ih, add_zero]

lemma sum_if_not_mem (V : List Token) (t0 : Token) (c : ℚ) (g : Token → ℚ)
    (h : t0 ∉ V) :
    (V.map (fun t => if t0 = t then c else g t)).sum = (V.map g).sum := by
  induction V with
  | nil => rfl
  | cons v V ih =>
    have hv : ¬ t0 = v := fun hh => h (hh ▸ List.mem_cons_self v V)
    simp only [List.map_cons, List.sum_cons, if_neg hv]
    rw [ih (fun hh => h (List.mem_cons_of_mem v hh))]

lemma sum_if_mem (V : List Token) (hnod : V.Nodup) (t0 : Token)
    (ht : t0 ∈ V) (c : ℚ) (g : Token → ℚ) (hg : g t0 = 0) :
    (V.map (fun t => if t0 = t then c else g t)).sum = c + (V.map g).sum := by
  induction V with
  | nil => exact absurd ht (List.not_mem_nil t0)
  | cons v V ih =>
    by_cases hv : t0 = v
    · subst hv
      have hnotin : t0 ∉ V := (List.nodup_cons.mp hnod).1
      simp only [List.map_cons, List.sum_cons, eq_self_iff_true, if_true]
      rw [sum_if_not_mem V t0 c g hnotin, hg]
      ring
    · rcases List.mem_cons.mp ht with rfl | ht'
      · exact absurd rfl hv
      · simp only [List.map_cons, List.sum_cons, if_neg hv]
        rw [ih (List.nodup_cons.mp hnod).2 ht']
        ring

lemma sum_lookup_eq_sumCounts :
    ∀ (e : CountEntry) (V : List Token), V.Nodup → (keysOf e).Nodup →
      (∀ p ∈ e, p.1 ∈ V) →
      (V.map (fun t => ((alookup e t).getD 0 : ℚ))).sum = (sumCounts e : ℚ) := by
  intro e
  induction e with
  | nil =>
    intro V _ _ _
    simp only [alookup, Option.getD_none]
    rw [show ((sumCounts [] : ℚ)) = 0 from rfl]
    exact_mod_cast sum_map_zero_q V
  | cons p e ih =>
    intro V hV hkeys hsub
    obtain ⟨t0, c0⟩ := p
    have ht0 : t0 ∈ V := hsub (t0, c0) (List.mem_cons_self _ _)
    have hnotin : t0 ∉ keysOf e := by
      have := List.nodup_cons.mp hkeys
      exact this.1
    have hglook : ((alookup e t0).getD 0 : ℚ) = 0 := by
      rw [alookup_eq_none_iff.mpr hnotin]
      rfl
    have hpoint : (V.map (fun t => ((alookup ((t0, c0) :: e) t).getD 0 : ℚ))) =
        (V.map (fun t => if t0 = t then (c0 : ℚ)
          else ((alookup e t).getD 0 : ℚ))) := by
      refine List.map_congr_left ?_
      intro t _
      simp only [alookup]
      by_cases h : t0 = t
      · rw [if_pos h, if_pos h]
        rfl
      · rw [if_neg h, if_neg h]
    rw [hpoint, sum_if_mem V hV t0 ht0 (c0 : ℚ) _ hglook]
    rw [ih V hV (List.nodup_cons.mp hkeys).2
      (fun q hq => hsub q (List.mem_cons_of_mem _ hq))]
    simp only [sumCounts, List.map_cons, List.sum_cons]
    push_cast
    ring

lemma sum_map_add_const (V : List Token) (f : Token → ℚ) (s : ℚ) :
    (V.map (fun t => f t + s)).sum = (V.map f).sum + V.length * s := by
  induction V with
  | nil => simp
  | cons v V ih =>
    simp only [List.map_cons, List.sum_cons, List.length_cons]
    rw [ih]
    push_cast
    ring

lemma sum_map_div_const (V : List Token) (f : Token → ℚ) (D : ℚ) :
    (V.map (fun t => f t / D)).sum = (V.map f).sum / D := by
  induction V with
  | nil => simp
  | cons v V ih =>
    simp only [List.map_cons, List.sum_cons]
    rw [ih, add_div]

end SumLemmas

section ClaimTheorems

lemma get_ngrams_eq_nil {m : Model} {u : List Char}
    (h : (paddedTokens m u).length < m.ngram_size) :
    get_ngrams m u = [] := by
  unfold get_ngrams
  exact windows_eq_nil h

lemma assign_probs_sentinel {m : Model} {u : List Char}
    (h : (paddedTokens m u).length < m.ngram_size) :
    assign_probs m u = ScoreOut.sentinel := by
  unfold assign_probs
  rw [if_pos (get_ngrams_eq_nil h)]

/-- C5: with `ngram_size = 3` and padding enabled, `get_ngrams` applied to
the two-character utterance `"ab"` yields exactly the four windows
`("<","<","a")`, `("<","a","b")`, `("a","b",">")`, `("b",">",">")`, in
this order. -/
theorem C5_get_ngrams_ab :
    get_ngrams (initModel ['f', 'f'] true 3 (1/1000)) ['a', 'b'] =
      [[['<'], ['<'], ['a']], [['<'], ['a'], ['b']],
       [['a'], ['b'], ['>']], [['b'], ['>'], ['>']]] := by decide

/-- C6: whenever the (possibly padded) token sequence of an utterance is
shorter than `ngram_size`, `assign_logprob` returns the distinguished falsy
sentinel `False` — not a number, and not an exception. -/
theorem C6_short_utterance_sentinel (m : Model) (u : List Char)
    (h : (paddedTokens m u).length < m.ngram_size) :
    assign_logprob m u = PyVal.bfalse := by
  unfold assign_logprob
  rw [assign_probs_sentinel h]

/-- Witness for C6 at `ngram_size = 3`, padding disabled, utterance
`"ab"` of length 2. -/
theorem C6_short_utterance_sentinel_witness :
    (paddedTokens (initModel ['f', 'f'] false 3 1) ['a', 'b']).length <
        (initModel ['f', 'f'] false 3 1).ngram_size ∧
      assign_logprob (initModel ['f', 'f'] false 3 1) ['a', 'b'] =
        PyVal.bfalse :=
  ⟨by decide, C6_short_utterance_sentinel _ _ (by decide)⟩

/-- C7: the claim says construction with `ngram_size ≤ 0` fails fast; the
constructor in the source performs no validation at all, so an invalid
model instance is produced.  This theorem evaluates the constructor at the
failing input `ngram_size = 0`: it returns an ordinary model carrying the
invalid size, rather than rejecting the configuration. -/
theorem C7_constructor_accepts_invalid_size :
    initModel ['f', 'f'] true 0 (1/1000) =
      { language := ['f', 'f'], pad_utterances := true, ngram_size := 0,
        smooth := 1/1000, ngram_counter := [],
        denominator_smoother := none } := rfl

/-- C9: `ngram_probability` and `assign_logprob` never mutate the model.
In the state-passing embedding, where the `defaultdict` subscript
`self.ngram_counter[left_context]` is allowed to insert a missing key, the
model state after either call is identical to the state before — for every
model state, trained or not; in particular no unseen context is ever
inserted into the count table. -/
theorem C9_scoring_is_read_only (m : Model) (g : List Token)
    (u : List Char) :
    (ngram_probability_st m g).2 = m ∧ (assign_probs_st m u).2 = m :=
  ⟨ngram_probability_st_model m g, assign_probs_st_model m u⟩


/-- C3: for every model trained on a corpus yielding a non-empty
vocabulary (equivalently, a non-empty count table — every stored count
records an observed next token) and every smoothing constant `> 0`,
`ngram_probability` of any nonempty n-gram returns a strictly positive
probability; in the unseen-context branch it equals
`smooth / denominator_smoother`. -/
theorem C3_probability_positive (lang : List Char) (pad : Bool) (n : Nat)
    (s : ℚ) (corpus : List (List Char)) (M : Model)
    (hM : M = estimate (initModel lang pad n s) corpus)
    (hs : 0 < s) (hne : M.ngram_counter ≠ [])
    (g : List Token) (hg : g ≠ []) :
    ∃ p, ngram_probability M g = some p ∧ 0 < p ∧
      (alookup M.ngram_counter g.dropLast = none →
        ∃ d, M.denominator_smoother = some d ∧ p = M.smooth / d) := by
  subst hM
  have hD : (estimate (initModel lang pad n s) corpus).denominator_smoother =
      some (((trainFold (initModel lang pad n s) corpus).2.length : ℚ) * s) :=
    rfl
  have hsm : (estimate (initModel lang pad n s) corpus).smooth = s := rfl
  have hso := trainFold_stateOk (initModel lang pad n s) corpus rfl
  have hvne : (trainFold (initModel lang pad n s) corpus).2 ≠ [] := by
    rcases hso.2.2.2 with h | h
    · exact absurd h hne
    · exact h
  have hdpos :
      0 < ((trainFold (initModel lang pad n s) corpus).2.length : ℚ) * s := by
    have hl : 0 < (trainFold (initModel lang pad n s) corpus).2.length :=
      List.length_pos.mpr hvne
    exact mul_pos (by exact_mod_cast hl) hs
  obtain ⟨t, hlast⟩ : ∃ t, g.getLast? = some t := by
    cases hl : g.getLast? with
    | none => exact absurd (List.getLast?_eq_none_iff.mp hl) hg
    | some t => exact ⟨t, rfl⟩
  cases halo : alookup (estimate (initModel lang pad n s) corpus).ngram_counter
      g.dropLast with
  | none =>
    refine ⟨s / (((trainFold (initModel lang pad n s) corpus).2.length : ℚ) * s),
      ?_, div_pos hs hdpos, ?_⟩
    · simp only [ngram_probability, hlast, halo, unseenProb, hD, hsm,
        if_neg (ne_of_gt hdpos)]
    · intro _
      exact ⟨_, rfl, rfl⟩
  | some e =>
    have hent := hso.2.2.1 _ (alookup_mem halo)
    have hene : e ≠ [] := hent.1
    have hdenpos : 0 < (sumCounts e : ℚ) +
        ((trainFold (initModel lang pad n s) corpus).2.length : ℚ) * s :=
      add_pos_of_nonneg_of_pos (by positivity) hdpos
    refine ⟨(((alookup e t).getD 0 : ℚ) + s) /
        ((sumCounts e : ℚ) +
          ((trainFold (initModel lang pad n s) corpus).2.length : ℚ) * s),
      ?_, ?_, ?_⟩
    · simp only [ngram_probability, hlast, halo, if_neg hene, hD, hsm,
        if_neg (ne_of_gt hdenpos)]
    · exact div_pos (add_pos_of_nonneg_of_pos (by positivity) hs) hdenpos
    · intro habs
      exact absurd habs (Option.some_ne_none e)

/-- Witness for C3 on the corpus `["a", "a", "b"]` with `ngram_size = 1`,
no padding and smoothing constant 1, scored at the unigram `("a",)`. -/
theorem C3_probability_positive_witness :
    (0 : ℚ) < 1 ∧
    (estimate (initModel ['x'] false 1 1)
      [['a'], ['a'], ['b']]).ngram_counter ≠ [] ∧
    ([['a']] : List Token) ≠ [] ∧
    ∃ p, ngram_probability
        (estimate (initModel ['x'] false 1 1) [['a'], ['a'], ['b']])
        [['a']] = some p ∧ 0 < p ∧
      (alookup (estimate (initModel ['x'] false 1 1)
          [['a'], ['a'], ['b']]).ngram_counter ([['a']] : List Token).dropLast =
          none →
        ∃ d, (estimate (initModel ['x'] false 1 1)
            [['a'], ['a'], ['b']]).denominator_smoother = some d ∧
          p = (estimate (initModel ['x'] false 1 1)
            [['a'], ['a'], ['b']]).smooth / d) :=
  ⟨by decide, by decide, by decide,
    C3_probability_positive ['x'] false 1 1 [['a'], ['a'], ['b']] _ rfl
      (by decide) (by decide) [['a']] (by decide)⟩

/-- C4: for every trained model with smoothing constant `s > 0` and
training vocabulary `V`, and every context present in the count table, the
probabilities `ngram_probability(context ++ [t])` over all tokens `t ∈ V`
are all defined and sum to exactly 1: the numerators
`count(context,t) + s` add up to `c + s*|V|` and the shared denominator is
`c + denominator_smoother = c + s*|V|`. -/
theorem C4_distribution_sums_to_one (lang : List Char) (pad : Bool)
    (n : Nat) (s : ℚ) (corpus : List (List Char)) (M : Model)
    (V : List Token)
    (hM : M = estimate (initModel lang pad n s) corpus)
    (hV : V = (trainFold (initModel lang pad n s) corpus).2)
    (hs : 0 < s) (ctx : Context) (e : CountEntry)
    (he : alookup M.ngram_counter ctx = some e) :
    (∀ t ∈ V, ngram_probability M (ctx ++ [t]) ≠ none) ∧
      (V.map (fun t => (ngram_probability M (ctx ++ [t])).getD 0)).sum = 1 := by
  subst hM
  subst hV
  have hD : (estimate (initModel lang pad n s) corpus).denominator_smoother =
      some (((trainFold (initModel lang pad n s) corpus).2.length : ℚ) * s) :=
    rfl
  have hsm : (estimate (initModel lang pad n s) corpus).smooth = s := rfl
  have hso := trainFold_stateOk (initModel lang pad n s) corpus rfl
  have hent := hso.2.2.1 _ (alookup_mem he)
  obtain ⟨hene, hnodke, hsub⟩ := hent
  have hVnodup := hso.2.1
  have hVne : (trainFold (initModel lang pad n s) corpus).2 ≠ [] := by
    cases e with
    | nil => exact absurd rfl hene
    | cons q rest =>
      exact List.ne_nil_of_mem (hsub q (List.mem_cons_self q rest))
  have hdpos :
      0 < ((trainFold (initModel lang pad n s) corpus).2.length : ℚ) * s := by
    have hl : 0 < (trainFold (initModel lang pad n s) corpus).2.length :=
      List.length_pos.mpr hVne
    exact mul_pos (by exact_mod_cast hl) hs
  have hdenpos : 0 < (sumCounts e : ℚ) +
      ((trainFold (initModel lang pad n s) corpus).2.length : ℚ) * s :=
    add_pos_of_nonneg_of_pos (by positivity) hdpos
  have hpoint : ∀ t : Token,
      ngram_probability (estimate (initModel lang pad n s) corpus)
          (ctx ++ [t]) =
        some ((((alookup e t).getD 0 : ℚ) + s) /
          ((sumCounts e : ℚ) +
            ((trainFold (initModel lang pad n s) corpus).2.length : ℚ) * s)) := by
    intro t
    have h := ngram_probability_concat_seen t he hene hD
      (ne_of_gt hdenpos)
    rw [hsm] at h
    exact h
  constructor
  · intro t _
    rw [hpoint t]
    exact Option.some_ne_none _
  · have hmapeq : (trainFold (initModel lang pad n s) corpus).2.map
        (fun t => (ngram_probability (estimate (initModel lang pad n s) corpus)
          (ctx ++ [t])).getD 0) =
        (trainFold (initModel lang pad n s) corpus).2.map
          (fun t => (((alookup e t).getD 0 : ℚ) + s) /
            ((sumCounts e : ℚ) +
              ((trainFold (initModel lang pad n s) corpus).2.length : ℚ) * s)) := by
      refine List.map_congr_left ?_
      intro t _
      rw [hpoint t]
      rfl
    rw [hmapeq]
    rw [sum_map_div_const _ (fun t => ((alookup e t).getD 0 : ℚ) + s) _]
    rw [sum_map_add_const _ (fun t => ((alookup e t).getD 0 : ℚ)) s]
    rw [sum_lookup_eq_sumCounts e _ hVnodup hnodke hsub]
    exact div_self (ne_of_gt hdenpos)

/-- Witness for C4 on the corpus `["a", "a", "b"]` with `ngram_size = 1`,
no padding and smoothing constant 1, at the empty context. -/
theorem C4_distribution_sums_to_one_witness :
    (0 : ℚ) < 1 ∧
    alookup (estimate (initModel ['x'] false 1 1)
        [['a'], ['a'], ['b']]).ngram_counter [] =
      some [(['a'], 2), (['b'], 1)] ∧
    ((∀ t ∈ (trainFold (initModel ['x'] false 1 1) [['a'], ['a'], ['b']]).2,
        ngram_probability (estimate (initModel ['x'] false 1 1)
          [['a'], ['a'], ['b']]) ([] ++ [t]) ≠ none) ∧
      (((trainFold (initModel ['x'] false 1 1) [['a'], ['a'], ['b']]).2.map
        (fun t => (ngram_probability (estimate (initModel ['x'] false 1 1)
          [['a'], ['a'], ['b']]) ([] ++ [t])).getD 0)).sum = 1)) :=
  ⟨by decide, by decide,
    C4_distribution_sums_to_one ['x'] false 1 1 [['a'], ['a'], ['b']] _ _
      rfl rfl (by decide) [] [(['a'], 2), (['b'], 1)] (by decide)⟩

/-- C8: fix a count table, a vocabulary size `Vn > 0`, a context present in
the table, a next token observed after it (count `k ≥ 1`) and a next token
never observed after it.  With `denominator_smoother` recomputed as
`Vn * s`, the probability gap between the observed and the unseen token is
strictly decreasing in the smoothing constant: for `0 < s1 < s2` the gap
under `s2` is strictly smaller than under `s1`. -/
theorem C8_smoothing_flattens (lang : List Char) (pad : Bool) (n : Nat)
    (tab : CountTable) (Vn : Nat) (ctx : Context) (e : CountEntry)
    (t1 t2 : Token) (k : Nat) (s1 s2 : ℚ)
    (he : alookup tab ctx = some e) (hene : e ≠ [])
    (h1 : alookup e t1 = some k) (hk : 1 ≤ k)
    (h2 : alookup e t2 = none) (hVn : 0 < Vn)
    (hs1 : 0 < s1) (hs12 : s1 < s2)
    (p1 q1 p2 q2 : ℚ)
    (hp1 : ngram_probability ⟨lang, pad, n, s1, tab, some ((Vn : ℚ) * s1)⟩
      (ctx ++ [t1]) = some p1)
    (hq1 : ngram_probability ⟨lang, pad, n, s1, tab, some ((Vn : ℚ) * s1)⟩
      (ctx ++ [t2]) = some q1)
    (hp2 : ngram_probability ⟨lang, pad, n, s2, tab, some ((Vn : ℚ) * s2)⟩
      (ctx ++ [t1]) = some p2)
    (hq2 : ngram_probability ⟨lang, pad, n, s2, tab, some ((Vn : ℚ) * s2)⟩
      (ctx ++ [t2]) = some q2) :
    p2 - q2 < p1 - q1 := by
  have hs2 : 0 < s2 := hs1.trans hs12
  have hVq : (0 : ℚ) < (Vn : ℚ) := by exact_mod_cast hVn
  have hD1 : (0 : ℚ) < (sumCounts e : ℚ) + (Vn : ℚ) * s1 :=
    add_pos_of_nonneg_of_pos (by positivity) (mul_pos hVq hs1)
  have hD2 : (0 : ℚ) < (sumCounts e : ℚ) + (Vn : ℚ) * s2 :=
    add_pos_of_nonneg_of_pos (by positivity) (mul_pos hVq hs2)
  have hDlt : (sumCounts e : ℚ) + (Vn : ℚ) * s1 <
      (sumCounts e : ℚ) + (Vn : ℚ) * s2 :=
    add_lt_add_left (mul_lt_mul_of_pos_left hs12 hVq) _
  have e1 := ngram_probability_concat_seen (m := ⟨lang, pad, n, s1, tab,
    some ((Vn : ℚ) * s1)⟩) t1 he hene rfl (ne_of_gt hD1)
  have e2 := ngram_probability_concat_seen (m := ⟨lang, pad, n, s1, tab,
    some ((Vn : ℚ) * s1)⟩) t2 he hene rfl (ne_of_gt hD1)
  have e3 := ngram_probability_concat_seen (m := ⟨lang, pad, n, s2, tab,
    some ((Vn : ℚ) * s2)⟩) t1 he hene rfl (ne_of_gt hD2)
  have e4 := ngram_probability_concat_seen (m := ⟨lang, pad, n, s2, tab,
    some ((Vn : ℚ) * s2)⟩) t2 he hene rfl (ne_of_gt hD2)
  rw [hp1] at e1
  rw [hq1] at e2
  rw [hp2] at e3
  rw [hq2] at e4
  rw [h1] at e1 e3
  rw [h2] at e2 e4
  have hv1 : p1 = ((k : ℚ) + s1) / ((sumCounts e : ℚ) + (Vn : ℚ) * s1) := by
    have := Option.some.inj e1
    simpa using this
  have hv2 : q1 = ((0 : ℚ) + s1) / ((sumCounts e : ℚ) + (Vn : ℚ) * s1) := by
    have := Option.some.inj e2
    simpa using this
  have hv3 : p2 = ((k : ℚ) + s2) / ((sumCounts e : ℚ) + (Vn : ℚ) * s2) := by
    have := Option.some.inj e3
    simpa using this
  have hv4 : q2 = ((0 : ℚ) + s2) / ((sumCounts e : ℚ) + (Vn : ℚ) * s2) := by
    have := Option.some.inj e4
    simpa using this
  have hgap1 : p1 - q1 = (k : ℚ) / ((sumCounts e : ℚ) + (Vn : ℚ) * s1) := by
    rw [hv1, hv2, div_sub_div_same]
    ring_nf
  have hgap2 : p2 - q2 = (k : ℚ) / ((sumCounts e : ℚ) + (Vn : ℚ) * s2) := by
    rw [hv3, hv4, div_sub_div_same]
    ring_nf
  rw [hgap1, hgap2]
  exact div_lt_div_of_pos_left (by exact_mod_cast hk) hD1 hDlt

/-- Witness for C8: a one-context table with one observed token, vocabulary
size 1, smoothing constants 1 and 2. -/
theorem C8_smoothing_flattens_witness :
    alookup [(([] : Context), [(['a'], 1)])] [] = some [(['a'], 1)] ∧
    ([(['a'], 1)] : CountEntry) ≠ [] ∧
    alookup [(['a'], 1)] ['a'] = some 1 ∧ (1 : Nat) ≤ 1 ∧
    alookup [(['a'], 1)] ['b'] = none ∧ (0 : Nat) < 1 ∧
    (0 : ℚ) < 1 ∧ (1 : ℚ) < 2 ∧
    ngram_probability ⟨['x'], false, 2, 1, [([], [(['a'], 1)])],
      some ((1 : ℚ) * 1)⟩ ([] ++ [['a']]) = some 1 ∧
    ngram_probability ⟨['x'], false, 2, 1, [([], [(['a'], 1)])],
      some ((1 : ℚ) * 1)⟩ ([] ++ [['b']]) = some (1/2) ∧
    ngram_probability ⟨['x'], false, 2, 2, [([], [(['a'], 1)])],
      some ((1 : ℚ) * 2)⟩ ([] ++ [['a']]) = some 1 ∧
    ngram_probability ⟨['x'], false, 2, 2, [([], [(['a'], 1)])],
      some ((1 : ℚ) * 2)⟩ ([] ++ [['b']]) = some (2/3) ∧
    (1 : ℚ) - 2/3 < 1 - 1/2 :=
  ⟨by decide, by decide, by decide, by decide, by decide, by decide,
    by decide, by decide,
    by norm_num +decide [ngram_probability, alookup, sumCounts, unseenProb],
    by norm_num +decide [ngram_probability, alookup, sumCounts, unseenProb],
    by norm_num +decide [ngram_probability, alookup, sumCounts, unseenProb],
    by norm_num +decide [ngram_probability, alookup, sumCounts, unseenProb],
    C8_smoothing_flattens ['x'] false 2 [([], [(['a'], 1)])] 1 []
      [(['a'], 1)] ['a'] ['b'] 1 1 2 (by decide) (by decide) (by decide)
      (by decide) (by decide) (by decide) (by decide) (by decide) 1 (1/2) 1
      (2/3)
      (by norm_num +decide [ngram_probability, alookup, sumCounts, unseenProb])
      (by norm_num +decide [ngram_probability, alookup, sumCounts, unseenProb])
      (by norm_num +decide [ngram_probability, alookup, sumCounts, unseenProb])
      (by norm_num +decide [ngram_probability, alookup, sumCounts, unseenProb])⟩

/-- The unigram model trained on the corpus `["a", "a", "b"]` with
`ngram_size = 1`, no padding and smoothing constant 1.  Its count table
has the single context `()`, so the shuffle before saving is necessarily
the identity permutation. -/
def unigramModel : Model :=
  estimate (initModel ['x'] false 1 1) [['a'], ['a'], ['b']]

/-- C1 counterexample: saving and reloading the unigram model does NOT
round-trip.  The empty context `()` is serialized as the key `""`, which
`load_model` splits back into the one-token context `("",)`; the count
table changes, and scoring the utterance `"a"` now falls into the
unseen-context branch, so the reloaded model assigns a different
log-probability (`log(1/2)` instead of `log(3/5)`). -/
theorem C1_roundtrip_counterexample :
    (load_model (save_model unigramModel
        unigramModel.ngram_counter)).ngram_counter ≠
      unigramModel.ngram_counter ∧
    assign_logprob (load_model (save_model unigramModel
        unigramModel.ngram_counter)) ['a'] ≠
      assign_logprob unigramModel ['a'] := by
  constructor
  · decide
  · have hA : assign_probs (load_model (save_model unigramModel
        unigramModel.ngram_counter)) ['a'] = ScoreOut.probs [1/2] := by
      norm_num +decide [assign_probs, collectProbs, get_ngrams, paddedTokens,
        tokensOf, windows, unigramModel, estimate, trainFold, trainStep,
        bumpCtx, bump, vinsert, ngram_probability, unseenProb, sumCounts,
        alookup, initModel, load_model, save_model, dictOf, dinsert,
        joinSp, splitSp]
    have hB : assign_probs unigramModel ['a'] = ScoreOut.probs [3/5] := by
      norm_num +decide [assign_probs, collectProbs, get_ngrams, paddedTokens,
        tokensOf, windows, unigramModel, estimate, trainFold, trainStep,
        bumpCtx, bump, vinsert, ngram_probability, unseenProb, sumCounts,
        alookup, initModel]
    intro heq
    unfold assign_logprob at heq
    rw [hA, hB] at heq
    have hlt : Real.log ((1 : ℝ)/2) < Real.log (3/5) :=
      Real.log_lt_log (by norm_num) (by norm_num)
    have hx := PyVal.f.inj heq
    simp only [List.map_cons, List.map_nil, List.sum_cons, List.sum_nil,
      List.length_cons, List.length_nil] at hx
    norm_num at hx
    rw [hx] at hlt
    exact absurd hlt (lt_irrefl _)

/-- C1 (amended): the round-trip `load(save(M))` preserves all five
metadata fields and reproduces identical count-table lookups and identical
scores on every utterance, for every shuffled document order, PROVIDED
`ngram_size ≥ 2` and no corpus utterance contains the space character
(the delimiter used for context keys).  The counterexample above shows the
claim fails without these provisos: with `ngram_size = 1` the empty
context does not survive the join/split of keys, and a space inside a
token similarly breaks the reconstruction. -/
theorem C1_roundtrip_amended (lang : List Char) (pad : Bool) (n : Nat)
    (s : ℚ) (corpus : List (List Char)) (M : Model)
    (hM : M = estimate (initModel lang pad n s) corpus)
    (hn : 2 ≤ n) (hsp : ∀ u ∈ corpus, ' ' ∉ u)
    (shuffled : List (Context × CountEntry))
    (hperm : shuffled.Perm M.ngram_counter) :
    (load_model (save_model M shuffled)).language = M.language ∧
    (load_model (save_model M shuffled)).pad_utterances = M.pad_utterances ∧
    (load_model (save_model M shuffled)).ngram_size = M.ngram_size ∧
    (load_model (save_model M shuffled)).smooth = M.smooth ∧
    (load_model (save_model M shuffled)).denominator_smoother =
      M.denominator_smoother ∧
    (∀ c, alookup (load_model (save_model M shuffled)).ngram_counter c =
      alookup M.ngram_counter c) ∧
    ∀ u, assign_logprob (load_model (save_model M shuffled)) u =
      assign_logprob M u := by
  subst hM
  have hso := trainFold_stateOk (initModel lang pad n s) corpus rfl
  have hnod : (keysOf (estimate (initModel lang pad n s)
      corpus).ngram_counter).Nodup := hso.1
  have hctxok := trainFold_ctxOk (initModel lang pad n s) corpus rfl hsp
  have hctx : ∀ q ∈ (estimate (initModel lang pad n s)
      corpus).ngram_counter, q.1 ≠ [] ∧ ∀ t ∈ q.1, ' ' ∉ t := by
    intro q hq
    have h := hctxok q hq
    refine ⟨?_, h.2⟩
    intro hq1nil
    have hlen := h.1
    rw [hq1nil] at hlen
    simp only [List.length_nil] at hlen
    have hlen2 : 0 = n - 1 := hlen
    omega
  have htab := load_save_counter hperm hnod hctx
  have hlook : ∀ c, alookup (load_model (save_model
      (estimate (initModel lang pad n s) corpus)
        shuffled)).ngram_counter c =
      alookup (estimate (initModel lang pad n s) corpus).ngram_counter c := by
    intro c
    rw [htab]
    exact alookup_perm hperm ((keysOf_perm hperm).nodup_iff.mpr hnod) c
  have hpadx : (load_model (save_model (estimate (initModel lang pad n s)
      corpus) shuffled)).pad_utterances =
      (estimate (initModel lang pad n s) corpus).pad_utterances := rfl
  have hnx : (load_model (save_model (estimate (initModel lang pad n s)
      corpus) shuffled)).ngram_size =
      (estimate (initModel lang pad n s) corpus).ngram_size := rfl
  have hsmx : (load_model (save_model (estimate (initModel lang pad n s)
      corpus) shuffled)).smooth =
      (estimate (initModel lang pad n s) corpus).smooth := rfl
  have hDx : (load_model (save_model (estimate (initModel lang pad n s)
      corpus) shuffled)).denominator_smoother =
      (estimate (initModel lang pad n s) corpus).denominator_smoother := rfl
  exact ⟨rfl, rfl, rfl, rfl, rfl, hlook,
    fun u => assign_logprob_congr hpadx hnx hsmx hDx hlook u⟩

/-- Witness for C1 (amended) on the corpus `["ab"]` with `ngram_size = 2`,
padding on, smoothing constant 1 and the identity shuffle. -/
theorem C1_roundtrip_amended_witness :
    2 ≤ 2 ∧ (∀ u ∈ [['a', 'b']], ' ' ∉ u) ∧
    ((load_model (save_model (estimate (initModel ['f', 'f'] true 2 1)
        [['a', 'b']]) (estimate (initModel ['f', 'f'] true 2 1)
        [['a', 'b']]).ngram_counter)).language =
      (estimate (initModel ['f', 'f'] true 2 1) [['a', 'b']]).language ∧
    (load_model (save_model (estimate (initModel ['f', 'f'] true 2 1)
        [['a', 'b']]) (estimate (initModel ['f', 'f'] true 2 1)
        [['a', 'b']]).ngram_counter)).pad_utterances =
      (estimate (initModel ['f', 'f'] true 2 1) [['a', 'b']]).pad_utterances ∧
    (load_model (save_model (estimate (initModel ['f', 'f'] true 2 1)
        [['a', 'b']]) (estimate (initModel ['f', 'f'] true 2 1)
        [['a', 'b']]).ngram_counter)).ngram_size =
      (estimate (initModel ['f', 'f'] true 2 1) [['a', 'b']]).ngram_size ∧
    (load_model (save_model (estimate (initModel ['f', 'f'] true 2 1)
        [['a', 'b']]) (estimate (initModel ['f', 'f'] true 2 1)
        [['a', 'b']]).ngram_counter)).smooth =
      (estimate (initModel ['f', 'f'] true 2 1) [['a', 'b']]).smooth ∧
    (load_model (save_model (estimate (initModel ['f', 'f'] true 2 1)
        [['a', 'b']]) (estimate (initModel ['f', 'f'] true 2 1)
        [['a', 'b']]).ngram_counter)).denominator_smoother =
      (estimate (initModel ['f', 'f'] true 2 1)
        [['a', 'b']]).denominator_smoother ∧
    (∀ c, alookup (load_model (save_model (estimate
        (initModel ['f', 'f'] true 2 1) [['a', 'b']])
        (estimate (initModel ['f', 'f'] true 2 1)
          [['a', 'b']]).ngram_counter)).ngram_counter c =
      alookup (estimate (initModel ['f', 'f'] true 2 1)
        [['a', 'b']]).ngram_counter c) ∧
    ∀ u, assign_logprob (load_model (save_model (estimate
        (initModel ['f', 'f'] true 2 1) [['a', 'b']])
        (estimate (initModel ['f', 'f'] true 2 1)
          [['a', 'b']]).ngram_counter)) u =
      assign_logprob (estimate (initModel ['f', 'f'] true 2 1)
        [['a', 'b']]) u) :=
  ⟨by decide, by decide,
    C1_roundtrip_amended ['f', 'f'] true 2 1 [['a', 'b']] _ rfl
      (by decide) (by decide) _ (List.Perm.refl _)⟩

/-- A model trained on the corpus `["aa"]` (`ngram_size = 2`, padding on,
smoothing constant 1) whose language tag is `"en"`. -/
def tieModelEn : Model :=
  estimate (initModel ['e', 'n'] true 2 1) [['a', 'a']]

/-- The same trained model with language tag `"fr"`; it assigns exactly the
same score as `tieModelEn` to every text. -/
def tieModelFr : Model :=
  estimate (initModel ['f', 'r'] true 2 1) [['a', 'a']]

/-- C2 counterexample: two identically trained models, loaded in the order
`["en", "fr"]`, score the text `"a"` identically, yet the identifier
returns `"fr"` — the lexicographically greatest language tag — not the
first-loaded model's tag `"en"`.  The tuple comparison of Python's `max`
breaks score ties by the language string, not by load order. -/
theorem C2_tie_counterexample :
    assign_logprob tieModelEn ['a'] = assign_logprob tieModelFr ['a'] ∧
    tieModelEn.language = ['e', 'n'] ∧
    tieModelFr.language = ['f', 'r'] ∧
    language_identifier [tieModelEn, tieModelFr] ['a'] =
      some ['f', 'r'] := by
  have htab : tieModelEn.ngram_counter = tieModelFr.ngram_counter := by
    decide
  have hVlen : (trainFold (initModel ['e', 'n'] true 2 1)
      [['a', 'a']]).2.length =
      (trainFold (initModel ['f', 'r'] true 2 1) [['a', 'a']]).2.length := by
    decide
  have hD : tieModelEn.denominator_smoother =
      tieModelFr.denominator_smoother := by
    show some (((trainFold (initModel ['e', 'n'] true 2 1)
        [['a', 'a']]).2.length : ℚ) * 1) =
      some (((trainFold (initModel ['f', 'r'] true 2 1)
        [['a', 'a']]).2.length : ℚ) * 1)
    rw [hVlen]
  have hpadx : tieModelEn.pad_utterances = tieModelFr.pad_utterances := rfl
  have hnx : tieModelEn.ngram_size = tieModelFr.ngram_size := rfl
  have hsmx : tieModelEn.smooth = tieModelFr.smooth := rfl
  have hlook : ∀ c, alookup tieModelEn.ngram_counter c =
      alookup tieModelFr.ngram_counter c := by
    intro c
    rw [htab]
  have hscore : assign_logprob tieModelEn ['a'] =
      assign_logprob tieModelFr ['a'] :=
    assign_logprob_congr hpadx hnx hsmx hD hlook ['a']
  have hpe : assign_probs tieModelEn ['a'] = ScoreOut.probs [2/3, 1/2] := by
    norm_num +decide [assign_probs, collectProbs, get_ngrams, paddedTokens,
      tokensOf, windows, tieModelEn, estimate, trainFold, trainStep,
      bumpCtx, bump, vinsert, ngram_probability, unseenProb, sumCounts,
      alookup, initModel]
  have hpf : assign_probs tieModelFr ['a'] = ScoreOut.probs [2/3, 1/2] := by
    have hcong := assign_probs_congr hpadx hnx hsmx hD hlook ['a']
    rw [← hcong]
    exact hpe
  have hcond : ∀ mo ∈ [tieModelEn, tieModelFr],
      assign_probs mo ['a'] ≠ ScoreOut.exn := by
    intro mo hmo
    rcases List.mem_cons.mp hmo with rfl | hmo
    · rw [hpe]
      decide
    · rcases List.mem_cons.mp hmo with rfl | hmo
      · rw [hpf]
        decide
      · exact absurd hmo (List.not_mem_nil mo)
  refine ⟨hscore, rfl, rfl, ?_⟩
  have hred : language_identifier [tieModelEn, tieModelFr] ['a'] =
      if ∀ mo ∈ [tieModelEn, tieModelFr],
          assign_probs mo ['a'] ≠ ScoreOut.exn then
        some (pymax (pyNum (assign_logprob tieModelEn ['a']),
            tieModelEn.language)
          ([tieModelFr].map (fun mo =>
            (pyNum (assign_logprob mo ['a']), mo.language)))).2
      else none := rfl
  rw [hred, if_pos hcond]
  simp only [List.map_cons, List.map_nil]
  rw [pymax_cons, pymax_nil]
  have hnum : pyNum (assign_logprob tieModelEn ['a']) =
      pyNum (assign_logprob tieModelFr ['a']) := congrArg pyNum hscore
  have hgt : pairGt
      (pyNum (assign_logprob tieModelFr ['a']), tieModelFr.language)
      (pyNum (assign_logprob tieModelEn ['a']), tieModelEn.language) := by
    right
    exact ⟨hnum.symm, by decide⟩
  unfold pystep
  rw [if_pos hgt]
  rfl

/-- C2 (amended): for every nonempty model collection and every text on
which no model raises, `language_identifier` returns the tag of a model
achieving the maximal score (the `False` sentinel comparing as 0.0), but
score ties are broken by the lexicographically GREATEST language tag — the
greatest `(score, tag)` tuple wins, with the first-loaded model winning
only among models whose score and tag are both identical — not by a
first-loaded priority. -/
theorem C2_identifier_argmax (m0 : Model) (rest : List Model)
    (text : List Char)
    (hexn : ∀ mo ∈ m0 :: rest, assign_probs mo text ≠ ScoreOut.exn) :
    ∃ mo ∈ m0 :: rest,
      language_identifier (m0 :: rest) text = some mo.language ∧
      (∀ m' ∈ m0 :: rest, pyNum (assign_logprob m' text) ≤
        pyNum (assign_logprob mo text)) ∧
      (∀ m' ∈ m0 :: rest, pyNum (assign_logprob m' text) =
        pyNum (assign_logprob mo text) → m'.language ≤ mo.language) := by
  have hred : language_identifier (m0 :: rest) text =
      if ∀ mo ∈ m0 :: rest, assign_probs mo text ≠ ScoreOut.exn then
        some (pymax (pyNum (assign_logprob m0 text), m0.language)
          (rest.map (fun mo =>
            (pyNum (assign_logprob mo text), mo.language)))).2
      else none := rfl
  have hid : language_identifier (m0 :: rest) text =
      some (pymax (pyNum (assign_logprob m0 text), m0.language)
        (rest.map (fun mo =>
          (pyNum (assign_logprob mo text), mo.language)))).2 := by
    rw [hred, if_pos hexn]
  have hmem := pymax_mem (pyNum (assign_logprob m0 text), m0.language)
    (rest.map (fun mo => (pyNum (assign_logprob mo text), mo.language)))
  have hmem2 : pymax (pyNum (assign_logprob m0 text), m0.language)
      (rest.map (fun mo => (pyNum (assign_logprob mo text), mo.language))) ∈
      (m0 :: rest).map
        (fun mo => (pyNum (assign_logprob mo text), mo.language)) := hmem
  rcases List.mem_map.mp hmem2 with ⟨mo, hmo, heq⟩
  refine ⟨mo, hmo, ?_, ?_, ?_⟩
  · rw [hid, ← heq]
  · intro m' hm'
    have hmm : (pyNum (assign_logprob m' text), m'.language) ∈
        (pyNum (assign_logprob m0 text), m0.language) ::
          rest.map (fun mo =>
            (pyNum (assign_logprob mo text), mo.language)) := by
      rcases List.mem_cons.mp hm' with rfl | hm2
      · exact List.mem_cons_self _ _
      · exact List.mem_cons_of_mem _ (List.mem_map_of_mem _ hm2)
    have hle := pymax_ge (pyNum (assign_logprob m0 text), m0.language)
      (rest.map (fun mo => (pyNum (assign_logprob mo text), mo.language)))
      (pyNum (assign_logprob m' text), m'.language) hmm
    rw [← heq] at hle
    rcases hle with h | ⟨h, -⟩
    · exact le_of_lt h
    · exact le_of_eq h
  · intro m' hm' hnum
    have hmm : (pyNum (assign_logprob m' text), m'.language) ∈
        (pyNum (assign_logprob m0 text), m0.language) ::
          rest.map (fun mo =>
            (pyNum (assign_logprob mo text), mo.language)) := by
      rcases List.mem_cons.mp hm' with rfl | hm2
      · exact List.mem_cons_self _ _
      · exact List.mem_cons_of_mem _ (List.mem_map_of_mem _ hm2)
    have hle := pymax_ge (pyNum (assign_logprob m0 text), m0.language)
      (rest.map (fun mo => (pyNum (assign_logprob mo text), mo.language)))
      (pyNum (assign_logprob m' text), m'.language) hmm
    rw [← heq] at hle
    rcases hle with h | ⟨-, h2⟩
    · exact absurd hnum (ne_of_lt h)
    · exact h2

/-- Witness for C2 (amended) on a one-model collection whose scoring
returns the sentinel (so no exception is raised). -/
theorem C2_identifier_argmax_witness :
    (∀ mo ∈ [initModel ['z', 'z'] false 3 1],
      assign_probs mo ['a'] ≠ ScoreOut.exn) ∧
    ∃ mo ∈ [initModel ['z', 'z'] false 3 1],
      language_identifier [initModel ['z', 'z'] false 3 1] ['a'] =
        some mo.language ∧
      (∀ m' ∈ [initModel ['z', 'z'] false 3 1],
        pyNum (assign_logprob m' ['a']) ≤
          pyNum (assign_logprob mo ['a'])) ∧
      (∀ m' ∈ [initModel ['z', 'z'] false 3 1],
        pyNum (assign_logprob m' ['a']) =
          pyNum (assign_logprob mo ['a']) →
            m'.language ≤ mo.language) :=
  ⟨by decide, C2_identifier_argmax (initModel ['z', 'z'] false 3 1) [] ['a']
    (by decide)⟩

/-- C10: if at least one model returns the `False` sentinel on a text while
every model that returns a float returns a strictly negative one, the
identifier returns a sentinel-returning model's tag: the sentinel compares
as 0.0, which beats every negative score, and among several
sentinel-returning models the lexicographically greatest language tag
wins. -/
theorem C10_sentinel_wins (models : List Model) (text : List Char)
    (hexn : ∀ mo ∈ models, assign_probs mo text ≠ ScoreOut.exn)
    (hsent : ∃ ms ∈ models, assign_probs ms text = ScoreOut.sentinel)
    (hneg : ∀ mo ∈ models, ∀ x : ℝ,
      assign_logprob mo text = PyVal.f x → x < 0) :
    ∃ mo ∈ models, assign_probs mo text = ScoreOut.sentinel ∧
      language_identifier models text = some mo.language ∧
      ∀ m' ∈ models, assign_probs m' text = ScoreOut.sentinel →
        m'.language ≤ mo.language := by
  obtain ⟨ms, hms, hsml⟩ := hsent
  cases models with
  | nil => exact absurd hms (List.not_mem_nil ms)
  | cons m0 rest =>
    have hred : language_identifier (m0 :: rest) text =
        if ∀ mo ∈ m0 :: rest, assign_probs mo text ≠ ScoreOut.exn then
          some (pymax (pyNum (assign_logprob m0 text), m0.language)
            (rest.map (fun mo =>
              (pyNum (assign_logprob mo text), mo.language)))).2
        else none := rfl
    have hid : language_identifier (m0 :: rest) text =
        some (pymax (pyNum (assign_logprob m0 text), m0.language)
          (rest.map (fun mo =>
            (pyNum (assign_logprob mo text), mo.language)))).2 := by
      rw [hred, if_pos hexn]
    have hmem : pymax (pyNum (assign_logprob m0 text), m0.language)
        (rest.map (fun mo =>
          (pyNum (assign_logprob mo text), mo.language))) ∈
        (m0 :: rest).map
          (fun mo => (pyNum (assign_logprob mo text), mo.language)) :=
      pymax_mem _ _
    rcases List.mem_map.mp hmem with ⟨mo, hmo, heq⟩
    have hpairmem : ∀ m' ∈ m0 :: rest,
        (pyNum (assign_logprob m' text), m'.language) ∈
        (pyNum (assign_logprob m0 text), m0.language) ::
          rest.map (fun mo =>
            (pyNum (assign_logprob mo text), mo.language)) := by
      intro m' hm'
      rcases List.mem_cons.mp hm' with rfl | hm2
      · exact List.mem_cons_self _ _
      · exact List.mem_cons_of_mem _ (List.mem_map_of_mem _ hm2)
    have hnum_le : ∀ m' ∈ m0 :: rest,
        pyNum (assign_logprob m' text) ≤ 0 := by
      intro m' hm'
      cases hpr : assign_probs m' text with
      | exn => exact absurd hpr (hexn m' hm')
      | sentinel =>
        have hbf : assign_logprob m' text = PyVal.bfalse := by
          unfold assign_logprob
          rw [hpr]
        rw [hbf]
        exact le_refl (0 : ℝ)
      | probs ps =>
        have hlf : assign_logprob m' text =
            PyVal.f ((ps.map (fun p : ℚ => Real.log (p : ℝ))).sum /
              (ps.length : ℝ)) := by
          unfold assign_logprob
          rw [hpr]
        rw [hlf]
        exact le_of_lt (hneg m' hm' _ hlf)
    have hms_num : pyNum (assign_logprob ms text) = 0 := by
      have hbf : assign_logprob ms text = PyVal.bfalse := by
        unfold assign_logprob
        rw [hsml]
      rw [hbf]
      rfl
    have hge := pymax_ge (pyNum (assign_logprob m0 text), m0.language)
      (rest.map (fun mo => (pyNum (assign_logprob mo text), mo.language)))
      (pyNum (assign_logprob ms text), ms.language) (hpairmem ms hms)
    rw [← heq] at hge
    have hmo_ge : (0 : ℝ) ≤ pyNum (assign_logprob mo text) := by
      rcases hge with h | ⟨h, -⟩
      · have h' : pyNum (assign_logprob ms text) <
            pyNum (assign_logprob mo text) := h
        rw [hms_num] at h'
        exact le_of_lt h'
      · have h' : pyNum (assign_logprob ms text) =
            pyNum (assign_logprob mo text) := h
        rw [hms_num] at h'
        exact le_of_eq h'
    have hnum0 : pyNum (assign_logprob mo text) = 0 :=
      le_antisymm (hnum_le mo hmo) hmo_ge
    have hmosent : assign_probs mo text = ScoreOut.sentinel := by
      cases hpr : assign_probs mo text with
      | exn => exact absurd hpr (hexn mo hmo)
      | sentinel => rfl
      | probs ps =>
        have hlf : assign_logprob mo text =
            PyVal.f ((ps.map (fun p : ℚ => Real.log (p : ℝ))).sum /
              (ps.length : ℝ)) := by
          unfold assign_logprob
          rw [hpr]
        have hlt := hneg mo hmo _ hlf
        rw [hlf] at hnum0
        have hval : ((ps.map (fun p : ℚ => Real.log (p : ℝ))).sum /
            (ps.length : ℝ)) = 0 := hnum0
        rw [hval] at hlt
        exact absurd hlt (lt_irrefl 0)
    refine ⟨mo, hmo, hmosent, ?_, ?_⟩
    · rw [hid, ← heq]
    · intro m' hm' hsent'
      have hnum' : pyNum (assign_logprob m' text) = 0 := by
        have hbf : assign_logprob m' text = PyVal.bfalse := by
          unfold assign_logprob
          rw [hsent']
        rw [hbf]
        rfl
      have hle := pymax_ge (pyNum (assign_logprob m0 text), m0.language)
        (rest.map (fun mo => (pyNum (assign_logprob mo text), mo.language)))
        (pyNum (assign_logprob m' text), m'.language) (hpairmem m' hm')
      rw [← heq] at hle
      rcases hle with h | ⟨-, h2⟩
      · have h' : pyNum (assign_logprob m' text) <
            pyNum (assign_logprob mo text) := h
        rw [hnum', hnum0] at h'
        exact absurd h' (lt_irrefl 0)
      · exact h2

/-- Witness for C10: one untrained model that returns the sentinel on
`"a"` (`ngram_size = 3`, padding off) and one trained model that returns
the strictly negative score `log(1/2)`. -/
theorem C10_sentinel_wins_witness :
    (∀ mo ∈ [initModel ['z', 'z'] false 3 1,
        estimate (initModel ['a', 'a'] false 1 1) [['a'], ['b']]],
      assign_probs mo ['a'] ≠ ScoreOut.exn) ∧
    (∃ ms ∈ [initModel ['z', 'z'] false 3 1,
        estimate (initModel ['a', 'a'] false 1 1) [['a'], ['b']]],
      assign_probs ms ['a'] = ScoreOut.sentinel) ∧
    (∀ mo ∈ [initModel ['z', 'z'] false 3 1,
        estimate (initModel ['a', 'a'] false 1 1) [['a'], ['b']]],
      ∀ x : ℝ, assign_logprob mo ['a'] = PyVal.f x → x < 0) ∧
    (∃ mo ∈ [initModel ['z', 'z'] false 3 1,
        estimate (initModel ['a', 'a'] false 1 1) [['a'], ['b']]],
      assign_probs mo ['a'] = ScoreOut.sentinel ∧
      language_identifier [initModel ['z', 'z'] false 3 1,
        estimate (initModel ['a', 'a'] false 1 1) [['a'], ['b']]] ['a'] =
          some mo.language ∧
      ∀ m' ∈ [initModel ['z', 'z'] false 3 1,
          estimate (initModel ['a', 'a'] false 1 1) [['a'], ['b']]],
        assign_probs m' ['a'] = ScoreOut.sentinel →
          m'.language ≤ mo.language) := by
  have hp2 : assign_probs (estimate (initModel ['a', 'a'] false 1 1)
      [['a'], ['b']]) ['a'] = ScoreOut.probs [1/2] := by
    norm_num +decide [assign_probs, collectProbs, get_ngrams, paddedTokens,
      tokensOf, windows, estimate, trainFold, trainStep, bumpCtx, bump,
      vinsert, ngram_probability, unseenProb, sumCounts, alookup, initModel]
  have hexn : ∀ mo ∈ [initModel ['z', 'z'] false 3 1,
      estimate (initModel ['a', 'a'] false 1 1) [['a'], ['b']]],
      assign_probs mo ['a'] ≠ ScoreOut.exn := by
    intro mo hmo
    rcases List.mem_cons.mp hmo with rfl | hmo
    · decide
    · rcases List.mem_cons.mp hmo with rfl | hmo
      · rw [hp2]
        decide
      · exact absurd hmo (List.not_mem_nil mo)
  have hsent : ∃ ms ∈ [initModel ['z', 'z'] false 3 1,
      estimate (initModel ['a', 'a'] false 1 1) [['a'], ['b']]],
      assign_probs ms ['a'] = ScoreOut.sentinel :=
    ⟨initModel ['z', 'z'] false 3 1, List.mem_cons_self _ _, by decide⟩
  have hneg : ∀ mo ∈ [initModel ['z', 'z'] false 3 1,
      estimate (initModel ['a', 'a'] false 1 1) [['a'], ['b']]],
      ∀ x : ℝ, assign_logprob mo ['a'] = PyVal.f x → x < 0 := by
    intro mo hmo x hx
    rcases List.mem_cons.mp hmo with rfl | hmo
    · have h1 : assign_probs (initModel ['z', 'z'] false 3 1) ['a'] =
          ScoreOut.sentinel := by decide
      unfold assign_logprob at hx
      rw [h1] at hx
      exact PyVal.noConfusion hx
    · rcases List.mem_cons.mp hmo with rfl | hmo
      · unfold assign_logprob at hx
        rw [hp2] at hx
        have hx2 := PyVal.f.inj hx
        rw [← hx2]
        simp only [List.map_cons, List.map_nil, List.sum_cons, List.sum_nil,
          add_zero, List.length_cons, List.length_nil, zero_add,
          Nat.cast_one, div_one]
        have hcast : (((1 : ℚ)/2 : ℚ) : ℝ) = (1/2 : ℝ) := by norm_num
        rw [hcast]
        have h12 : (0 : ℝ) < 1/2 := by norm_num
        have h121 : (1/2 : ℝ) < 1 := by norm_num
        exact Real.log_neg h12 h121
      · exact absurd hmo (List.not_mem_nil mo)
  exact ⟨hexn, hsent, hneg, C10_sentinel_wins _ ['a'] hexn hsent hneg⟩
